import Mathlib

/-!
# 15-puzzle: a shallow embedding of `main.cpp`

The board is the 4×4 array `m_board` of `Tile`s. Points carry C++ `int`
coordinates: values of `Int` in the range of a 32-bit `int`, and the additions
and subtractions on them are reduced modulo `2^32` into that range (`wrapInt32`),
which is what the two's complement machine does when a sum leaves the range and
changes nothing otherwise. The two ways in which the C++ code can stop without
returning a value are explicit results:

* `assert(0 && "...")` aborts the process unless the program was compiled with
  `NDEBUG`, in which case it is a no-op and the statement after it runs.  Every
  function containing an assertion takes the build flag `ndebug : Bool`.
* an array access `m_board[r][c]` with `r` or `c` outside `0..3` is undefined
  behaviour, reported as `Fault.outOfBounds`.
-/

namespace Puzzle15

/-- Ways in which a call can fail to return a value. -/
inductive Fault where
  | assertFailed (msg : String)
  | outOfBounds
  deriving DecidableEq, Repr

instance {ε α : Type} [DecidableEq ε] [DecidableEq α] : DecidableEq (Except ε α)
  | .ok a, .ok b => decidable_of_iff (a = b) (by simp)
  | .error a, .error b => decidable_of_iff (a = b) (by simp)
  | .ok _, .error _ => isFalse (by simp)
  | .error _, .ok _ => isFalse (by simp)

/-- The statement `assert(0 && msg);` of `<cassert>`: a no-op when the program is
built with `NDEBUG`, an abort otherwise. -/
def assertFalse (ndebug : Bool) (msg : String) : Except Fault Unit :=
  if ndebug then .ok () else .error (.assertFailed msg)

/-- The constant `g_consoleLines`. -/
def g_consoleLines : Nat := 25

/-! ## Direction -/

/-- The enumeration `Direction::Type`, sentinel `maxDirections` included. -/
inductive DirectionType where
  | up
  | down
  | left
  | right
  | maxDirections
  deriving DecidableEq, Repr

/-- The class `Direction`: a wrapper around one enumerator. -/
structure Direction where
  m_type : DirectionType
  deriving Repr

instance : DecidableEq Direction := fun d1 d2 =>
  decidable_of_iff (d1.m_type = d2.m_type)
    ⟨fun h => by cases d1; cases d2; simpa using h, fun h => by rw [h]⟩

namespace Direction

/-- The member function `getType`. -/
def getType (d : Direction) : DirectionType := d.m_type

/-- The table `directionTypes{up, down, left, right}`. -/
def directionTypes : Fin 4 → DirectionType :=
  ![DirectionType.up, DirectionType.down, DirectionType.left, DirectionType.right]

/-- The function `Direction::random()`. The header `Random.h` is not among the
sources; the value of `Random::get(0, 3)`, an integer of the inclusive range `0..3`
by the specification of the random service, is the parameter `draw`. -/
def random (draw : Fin 4) : Direction := ⟨directionTypes draw⟩

/-- The unary `operator-`. -/
def neg (ndebug : Bool) (d : Direction) : Except Fault Direction :=
  match d.m_type with
  | .up => .ok ⟨.down⟩
  | .down => .ok ⟨.up⟩
  | .left => .ok ⟨.right⟩
  | .right => .ok ⟨.left⟩
  | .maxDirections => do
      assertFalse ndebug "Unsupported direction was passed!"
      return ⟨.up⟩

/-- One of the four compass values, that is, not the sentinel. -/
def isCompass (d : Direction) : Prop := d.m_type ≠ DirectionType.maxDirections

instance (d : Direction) : Decidable d.isCompass := by
  unfold isCompass; infer_instance

end Direction

/-! ## Point -/

/-- The result of an `int` addition or subtraction whose mathematical value is
`v`, on a machine with 32-bit two's complement `int`: the value of the range
`-2^31 .. 2^31 - 1` congruent to `v` modulo `2^32`. It is `v` itself when `v` is
in the range; a sum outside the range is signed overflow, for which the compiled
code delivers this wrapped value. -/
def wrapInt32 (v : Int) : Int := (v + 2147483648) % 4294967296 - 2147483648

/-- The struct `Point`; `operator==` is component-wise, which is the equality
decided below. -/
structure Point where
  x : Int
  y : Int
  deriving Repr

instance : DecidableEq Point := fun p1 p2 =>
  decidable_of_iff (p1.x = p2.x ∧ p1.y = p2.y)
    ⟨fun h => by cases p1; cases p2; simpa using h, fun h => by rw [h]; exact ⟨rfl, rfl⟩⟩

/-- The member function `Point::getAdjacentPoint`; `x + 1`, `x - 1`, `y + 1` and
`y - 1` are `int` operations. -/
def Point.getAdjacentPoint (ndebug : Bool) (p : Point) (direction : Direction) :
    Except Fault Point :=
  match direction.getType with
  | .up => .ok ⟨p.x, wrapInt32 (p.y + 1)⟩
  | .down => .ok ⟨p.x, wrapInt32 (p.y - 1)⟩
  | .left => .ok ⟨wrapInt32 (p.x + 1), p.y⟩
  | .right => .ok ⟨wrapInt32 (p.x - 1), p.y⟩
  | .maxDirections => do
      assertFalse ndebug "Invalid direction entered"
      return ⟨p.x, p.y⟩

/-! ## Tile -/

/-- The class `Tile`. -/
structure Tile where
  m_value : Int
  deriving Repr

instance : DecidableEq Tile := fun t1 t2 =>
  decidable_of_iff (t1.m_value = t2.m_value)
    ⟨fun h => by cases t1; cases t2; simpa using h, fun h => by rw [h]⟩

/-- The member function `Tile::isEmpty`. -/
def Tile.isEmpty (t : Tile) : Bool := t.m_value == 0

/-- The member function `Tile::getNum`. -/
def Tile.getNum (t : Tile) : Int := t.m_value

/-- The friend `operator<<` of `Tile`, as the text it writes to the stream;
`out << tile.getNum()` writes the decimal numeral of the `int`. -/
def Tile.operatorOut (t : Tile) : String :=
  if t.isEmpty then "   "
  else (if t.getNum < 10 then " " else "") ++ (" " ++ toString t.getNum ++ " ")

/-! ## Board -/

/-- The constant `Board::s_size`. -/
abbrev s_size : Nat := 4

/-- The class `Board`: the array `Tile m_board[s_size][s_size]`, first index the
row. -/
structure Board where
  m_board : Fin s_size → Fin s_size → Tile

namespace Board

instance : DecidableEq Board := fun b1 b2 =>
  decidable_of_iff (∀ i j, b1.m_board i j = b2.m_board i j)
    ⟨fun h => by cases b1; cases b2; congr; funext i j; exact h i j, fun h _ _ => by rw [h]⟩

/-- The default member initialiser of `m_board`, which `Board() = default` uses:
the solved layout. -/
def solved : Board :=
  ⟨![![⟨1⟩, ⟨2⟩, ⟨3⟩, ⟨4⟩],
     ![⟨5⟩, ⟨6⟩, ⟨7⟩, ⟨8⟩],
     ![⟨9⟩, ⟨10⟩, ⟨11⟩, ⟨12⟩],
     ![⟨13⟩, ⟨14⟩, ⟨15⟩, ⟨0⟩]]⟩

/-- The static function `Board::validPoint`. -/
def validPoint (p : Point) : Bool :=
  (decide (p.x ≥ 0) && decide (p.x < (s_size : Int)))
    && (decide (p.y ≥ 0) && decide (p.y < (s_size : Int)))

/-- The inner loop of `findEmptyTile` for row `y`: the first column `x` whose
tile is empty, as the point the `return` statement builds. -/
def findEmptyTileInRow (b : Board) (y : Fin s_size) : Option Point :=
  (List.finRange s_size).findSome? fun x =>
    if (b.m_board y x).isEmpty then some ⟨(x.val : Int), (y.val : Int)⟩ else none

/-- The two nested loops of `findEmptyTile`: `some p` when a `return Point{x, y}`
inside the loops is taken, `none` when both loops run to their end. -/
def findEmptyTileScan (b : Board) : Option Point :=
  (List.finRange s_size).findSome? fun y => findEmptyTileInRow b y

/-- The member function `Board::findEmptyTile`. -/
def findEmptyTile (ndebug : Bool) (b : Board) : Except Fault Point :=
  match findEmptyTileScan b with
  | some p => .ok p
  | none => do
      assertFalse ndebug "Empty point is unfounded"
      return ⟨-1, -1⟩

/-- An `int` used as an index into an array of `s_size` elements; outside
`0..s_size-1` the access is undefined behaviour. -/
def index (i : Int) : Except Fault (Fin s_size) :=
  if h : 0 ≤ i ∧ i < (s_size : Int) then
    .ok ⟨i.toNat, by have := h.1; have := h.2; omega⟩
  else .error .outOfBounds

/-- The effect of `std::swap` on the cells `(r1, c1)` and `(r2, c2)`. -/
def swapCells (b : Board) (r1 c1 r2 c2 : Fin s_size) : Board :=
  ⟨fun i j =>
    if i = r1 ∧ j = c1 then b.m_board r2 c2
    else if i = r2 ∧ j = c2 then b.m_board r1 c1
    else b.m_board i j⟩

/-- The member function `Board::swapTile`:
`std::swap(m_board[p1.y][p1.x], m_board[p2.y][p2.x])`. -/
def swapTile (b : Board) (p1 p2 : Point) : Except Fault Board := do
  let r1 ← index p1.y
  let c1 ← index p1.x
  let r2 ← index p2.y
  let c2 ← index p2.x
  return swapCells b r1 c1 r2 c2

/-- The member function `Board::moveTile`; the result pairs the returned
`bool` with the board after the call. -/
def moveTile (ndebug : Bool) (b : Board) (direction : Direction) :
    Except Fault (Bool × Board) := do
  let empty ← findEmptyTile ndebug b
  let adj ← empty.getAdjacentPoint ndebug direction
  if !validPoint adj then
    return (false, b)
  let b' ← swapTile b adj empty
  return (true, b')

/-- The friend `operator==` of `Board`: the flag `isEqual` is threaded through
all sixteen comparisons, none of which ends the loops early. -/
def operatorEq (b1 b2 : Board) : Bool :=
  (List.finRange 4).foldl
    (fun isEqual i =>
      (List.finRange 4).foldl
        (fun isEqual j =>
          if (b1.m_board i j).getNum ≠ (b2.m_board i j).getNum then false else isEqual)
        isEqual)
    true

/-- The inner loop of the friend `operator<<` of `Board` for row `i`: the text
of the four tiles of the row, before the newline that ends the row. -/
def operatorOutRow (b : Board) (i : Fin s_size) : String :=
  (List.finRange s_size).foldl (fun out j => out ++ (b.m_board i j).operatorOut) ""

/-- The friend `operator<<` of `Board`, as the text it writes: `g_consoleLines`
newlines, then each row followed by a newline. -/
def operatorOut (b : Board) : String :=
  (List.finRange s_size).foldl (fun out i => out ++ operatorOutRow b i ++ "\n")
    (String.mk (List.replicate g_consoleLines '\n'))

/-! ## Notions the properties are stated with -/

/-- The point `Point{x, y}` that names the cell in row `r`, column `c`. -/
def pointOf (r c : Fin s_size) : Point := ⟨(c.val : Int), (r.val : Int)⟩

/-- The expression `m_board[p.y][p.x]`. -/
def cellAt (b : Board) (p : Point) : Except Fault Tile := do
  let r ← index p.y
  let c ← index p.x
  return b.m_board r c

/-- Successive calls `moveTile(d)`, one for each direction of the list in order,
each on the board the previous call left; the returned flags are dropped. -/
def moveTiles (ndebug : Bool) (b : Board) : List Direction → Except Fault Board
  | [] => .ok b
  | d :: ds => do
      let r ← moveTile ndebug b d
      moveTiles ndebug r.2 ds

/-- The multiset of the sixteen tile values of a board. -/
def labels (b : Board) : Multiset Int :=
  (Finset.univ : Finset (Fin s_size × Fin s_size)).val.map fun p => (b.m_board p.1 p.2).getNum

/-- The multiset `{0, 1, ..., 15}`. -/
def allLabels : Multiset Int := (Multiset.range 16).map Int.ofNat

/-- Exactly one cell of the board holds the empty tile. -/
def ExactlyOneEmpty (b : Board) : Prop :=
  ∃! p : Fin s_size × Fin s_size, (b.m_board p.1 p.2).isEmpty = true

instance (b : Board) : Decidable (ExactlyOneEmpty b) := by
  unfold ExactlyOneEmpty ExistsUnique; infer_instance

end Board

/-! ## UserInput -/

namespace UserInput

/-- The function `UserInput::validInput`. -/
def validInput (ch : Char) : Bool :=
  ch == 'w' || ch == 'a' || ch == 's' || ch == 'd' || ch == 'q'

/-- The loop `while (!validInput(input)) input = getInput();` of
`getCommandFromUser`, entered with the current value of `input`. The list holds
the characters that successive calls of `getInput` return; when the loop needs
one more and the list is exhausted the loop never ends, which is `none`.
Otherwise the result is the value returned and the characters left unread. -/
def getCommandLoop (input : Char) : List Char → Option (Char × List Char)
  | [] => if validInput input then some (input, []) else none
  | c :: cs => if validInput input then some (input, c :: cs) else getCommandLoop c cs

/-- The function `UserInput::getCommandFromUser`; `char input{}` is the null
character. -/
def getCommandFromUser (stream : List Char) : Option (Char × List Char) :=
  getCommandLoop (Char.ofNat 0) stream

/-- The function `UserInput::convert`. -/
def convert (ndebug : Bool) (input : Char) : Except Fault Direction :=
  if input = 'w' then .ok ⟨.up⟩
  else if input = 's' then .ok ⟨.down⟩
  else if input = 'a' then .ok ⟨.left⟩
  else if input = 'd' then .ok ⟨.right⟩
  else do
    assertFalse ndebug "Unsupported direction was passed!"
    return ⟨.up⟩

end UserInput

/-! ## main -/

/-- One write to `std::cout`: a board (`std::cout << board`, whose text is
`Board.operatorOut`) or a literal message. -/
inductive Printed where
  | board (b : Board)
  | text (s : String)

instance : DecidableEq Printed
  | .board a, .board b => decidable_of_iff (a = b) (by simp)
  | .text a, .text b => decidable_of_iff (a = b) (by simp)
  | .board _, .text _ => isFalse (by simp)
  | .text _, .board _ => isFalse (by simp)

/-- How a run of `main` ends: `return 0`, or never, because `getCommandFromUser`
waits for a character that the input does not hold. The third value marks a loop
stopped by the iteration bound of the model, which `main` never produces. -/
inductive Ending where
  | exit0
  | awaitingInput
  | outOfFuel
  deriving DecidableEq, Repr

/-- What a run of `main` has done: everything written to `std::cout` in order,
the characters of the input it has not read, and how it ended. -/
structure Session where
  printed : List Printed
  unread : List Char
  ending : Ending

instance : DecidableEq Session := fun s1 s2 =>
  decidable_of_iff (s1.printed = s2.printed ∧ s1.unread = s2.unread ∧ s1.ending = s2.ending)
    ⟨fun h => by cases s1; cases s2; simpa using h, fun h => by rw [h]; exact ⟨rfl, rfl, rfl⟩⟩

/-- The loop `while (true)` of `main`, with `board2` the solved reference,
`board` the live board, `stream` the characters `getInput` will return and
`printed` what has been written so far. Every iteration that goes round reads at
least one character, so `stream.length + 1` iterations always suffice. -/
def mainLoop (ndebug : Bool) (board2 : Board) :
    Nat → Board → List Char → List Printed → Except Fault Session
  | 0, _, stream, printed => .ok ⟨printed, stream, .outOfFuel⟩
  | fuel + 1, board, stream, printed =>
    if Board.operatorEq board board2 then
      .ok ⟨printed ++ [.text "\n\nYou won!\n\n"], stream, .exit0⟩
    else
      match UserInput.getCommandFromUser stream with
      | none => .ok ⟨printed, [], .awaitingInput⟩
      | some (input, rest) =>
        if input = 'q' then
          .ok ⟨printed ++ [.text "\n\nBye!\n\n"], rest, .exit0⟩
        else do
          let direction ← UserInput.convert ndebug input
          let (userMoved, board') ← Board.moveTile ndebug board direction
          mainLoop ndebug board2 fuel board' rest
            (if userMoved then printed ++ [.board board'] else printed)

/-- The function `main`, run with `draw` the value `Random::get(0, 3)` returns
and `stream` the characters that successive calls of `getInput` return. -/
def main (ndebug : Bool) (draw : Fin 4) (stream : List Char) : Except Fault Session := do
  let board := Board.solved
  let board2 := board
  let (_, board) ← Board.moveTile ndebug board (Direction.random draw)
  mainLoop ndebug board2 (stream.length + 1) board stream [.board board]

/-! ## Further notions the properties are stated with -/

/-- A point whose two coordinates are values of a 32-bit `int`. -/
def Point.inIntRange (p : Point) : Prop :=
  (-2147483648 ≤ p.x ∧ p.x ≤ 2147483647) ∧ (-2147483648 ≤ p.y ∧ p.y ≤ 2147483647)

instance (p : Point) : Decidable p.inIntRange := by
  unfold Point.inIntRange; infer_instance

/-- The permutation `σ` of the sixteen cells describes the layout of `b` relative
to the solved layout: each cell `p` of `b` holds the tile that the solved layout
holds at the cell `σ p`. -/
def IsLayout (b : Board) (σ : Equiv.Perm (Fin s_size × Fin s_size)) : Prop :=
  ∀ p, b.m_board p.1 p.2 = Board.solved.m_board (σ p).1 (σ p).2

/-- The Manhattan distance `|3 - x| + |3 - y|` of a point from the corner `(3, 3)`. -/
def manhattan (p : Point) : Nat := (3 - p.x).natAbs + (3 - p.y).natAbs

/-- The parity relation between a layout and its empty cell: some permutation
describes the layout, some cell is empty, and the sign of the permutation is
`(-1)` to the Manhattan distance of that cell from the corner. -/
def ParityInvariant (b : Board) : Prop :=
  ∃ (σ : Equiv.Perm (Fin s_size × Fin s_size)) (r c : Fin s_size),
    IsLayout b σ ∧ (b.m_board r c).isEmpty = true ∧
    Equiv.Perm.sign σ = (-1 : ℤˣ) ^ manhattan (Board.pointOf r c)

/-- The directions among up, down, left, right, in the order of the table
`directionTypes`, for which `moveTile` returns `true` on the board. -/
def legalDirections (ndebug : Bool) (b : Board) : List DirectionType :=
  (List.ofFn Direction.directionTypes).filter fun t =>
    (Board.moveTile ndebug b ⟨t⟩).map Prod.fst = .ok true

/-- The live board after the commands of the list, each converted to a direction
and passed to `moveTile`, starting from `b`. -/
def boardAfter (ndebug : Bool) (b : Board) : List Char → Except Fault Board
  | [] => .ok b
  | c :: cs => do
      let d ← UserInput.convert ndebug c
      let r ← Board.moveTile ndebug b d
      boardAfter ndebug r.2 cs

/-! ## Auxiliary lemmas -/

/-- A search through `0, 1, ..., n-1` with early exit returns the value found at
the least index at which there is one. -/
theorem findSome?_finRange_eq_some {n : Nat} {β : Type} (f : Fin n → Option β) (v : β) :
    (List.finRange n).findSome? f = some v ↔ ∃ a, f a = some v ∧ ∀ a', a' < a → f a' = none := by
  constructor
  · intro h
    obtain ⟨l₁, a, l₂, hl, hfa, hnone⟩ := List.findSome?_eq_some_iff.mp h
    refine ⟨a, hfa, fun a' hlt => ?_⟩
    have hpw := List.pairwise_lt_finRange n
    rw [hl, List.pairwise_append] at hpw
    have hmem : a' ∈ l₁ ++ a :: l₂ := hl ▸ List.mem_finRange a'
    rcases List.mem_append.mp hmem with h1 | h2
    · exact hnone a' h1
    · rcases List.mem_cons.mp h2 with h3 | h3
      · exact absurd (h3 ▸ hlt) (lt_irrefl _)
      · have := (List.pairwise_cons.mp hpw.2.1).1 a' h3
        exact absurd (lt_trans this hlt) (lt_irrefl _)
  · rintro ⟨a, hfa, hnone⟩
    obtain ⟨l₁, l₂, hl⟩ := List.append_of_mem (List.mem_finRange a)
    refine List.findSome?_eq_some_iff.mpr ⟨l₁, a, l₂, hl, hfa, fun x hx => hnone x ?_⟩
    have hpw := List.pairwise_lt_finRange n
    rw [hl, List.pairwise_append] at hpw
    exact hpw.2.2 x hx a (List.mem_cons_self _ _)

theorem findSome?_finRange_eq_none {n : Nat} {β : Type} (f : Fin n → Option β) :
    (List.finRange n).findSome? f = none ↔ ∀ a, f a = none := by
  rw [List.findSome?_eq_none_iff]
  exact ⟨fun h a => h a (List.mem_finRange a), fun h a _ => h a⟩

namespace Board

theorem ext_cells {b1 b2 : Board} (h : ∀ i j, b1.m_board i j = b2.m_board i j) : b1 = b2 := by
  cases b1; cases b2; congr; funext i j; exact h i j

theorem pointOf_injective {r c r' c' : Fin s_size} (h : pointOf r c = pointOf r' c') :
    r = r' ∧ c = c' := by
  simp only [pointOf, Point.mk.injEq] at h
  exact ⟨Fin.ext (by omega), Fin.ext (by omega)⟩

theorem findEmptyTileInRow_eq_some (b : Board) (y : Fin s_size) (p : Point) :
    findEmptyTileInRow b y = some p ↔
      ∃ x, p = pointOf y x ∧ (b.m_board y x).isEmpty = true ∧
        ∀ x', x' < x → (b.m_board y x').isEmpty = false := by
  unfold findEmptyTileInRow
  rw [findSome?_finRange_eq_some]
  constructor
  · rintro ⟨x, hx, hlt⟩
    refine ⟨x, ?_, ?_, fun x' hx' => ?_⟩
    · by_cases he : (b.m_board y x).isEmpty = true <;> simp [he] at hx
      exact hx.symm
    · by_cases he : (b.m_board y x).isEmpty = true <;> simp [he] at hx
      exact he
    · have := hlt x' hx'
      by_cases he : (b.m_board y x').isEmpty = true <;> simp [he] at this
      simpa using he
  · rintro ⟨x, rfl, he, hlt⟩
    refine ⟨x, by simp [he, pointOf], fun x' hx' => by simp [hlt x' hx']⟩

theorem findEmptyTileInRow_eq_none (b : Board) (y : Fin s_size) :
    findEmptyTileInRow b y = none ↔ ∀ x, (b.m_board y x).isEmpty = false := by
  unfold findEmptyTileInRow
  rw [findSome?_finRange_eq_none]
  constructor
  · intro h x
    have := h x
    by_cases he : (b.m_board y x).isEmpty = true <;> simp [he] at this
    simpa using he
  · intro h x
    simp [h x]

/-- The scan returns the point of the first empty cell in row-major order. -/
theorem findEmptyTileScan_eq_some (b : Board) (p : Point) :
    findEmptyTileScan b = some p ↔
      ∃ y x, p = pointOf y x ∧ (b.m_board y x).isEmpty = true ∧
        (∀ x', x' < x → (b.m_board y x').isEmpty = false) ∧
        ∀ y', y' < y → ∀ x', (b.m_board y' x').isEmpty = false := by
  unfold findEmptyTileScan
  rw [findSome?_finRange_eq_some]
  constructor
  · rintro ⟨y, hy, hlt⟩
    obtain ⟨x, hp, he, hx⟩ := (findEmptyTileInRow_eq_some b y p).mp hy
    exact ⟨y, x, hp, he, hx, fun y' hy' => (findEmptyTileInRow_eq_none b y').mp (hlt y' hy')⟩
  · rintro ⟨y, x, hp, he, hx, hy⟩
    exact ⟨y, (findEmptyTileInRow_eq_some b y p).mpr ⟨x, hp, he, hx⟩,
      fun y' hy' => (findEmptyTileInRow_eq_none b y').mpr (hy y' hy')⟩

/-- The scan falls through exactly when no cell is empty. -/
theorem findEmptyTileScan_eq_none (b : Board) :
    findEmptyTileScan b = none ↔ ∀ y x, (b.m_board y x).isEmpty = false := by
  unfold findEmptyTileScan
  rw [findSome?_finRange_eq_none]
  exact ⟨fun h y => (findEmptyTileInRow_eq_none b y).mp (h y),
    fun h y => (findEmptyTileInRow_eq_none b y).mpr (h y)⟩

/-! ### Array indexing -/

theorem index_val (i : Fin s_size) : index (i.val : Int) = .ok i := by
  have h : 0 ≤ (i.val : Int) ∧ (i.val : Int) < (s_size : Int) := by
    constructor
    · omega
    · exact_mod_cast i.isLt
  simp [index, h]

theorem validPoint_pointOf (r c : Fin s_size) : validPoint (pointOf r c) = true := by
  have hr := r.isLt
  have hc := c.isLt
  simp only [validPoint, pointOf, Bool.and_eq_true, decide_eq_true_eq]
  refine ⟨⟨by omega, by exact_mod_cast hc⟩, ⟨by omega, by exact_mod_cast hr⟩⟩

theorem validPoint_iff (p : Point) : validPoint p = true ↔ ∃ r c, p = pointOf r c := by
  constructor
  · intro h
    obtain ⟨x, y⟩ := p
    simp only [validPoint, Bool.and_eq_true, decide_eq_true_eq] at h
    obtain ⟨⟨hx0, hx1⟩, hy0, hy1⟩ := h
    refine ⟨⟨y.toNat, by omega⟩, ⟨x.toNat, by omega⟩, ?_⟩
    simp only [pointOf, Point.mk.injEq]
    constructor <;> omega
  · rintro ⟨r, c, rfl⟩
    exact validPoint_pointOf r c

theorem swapTile_pointOf (b : Board) (r1 c1 r2 c2 : Fin s_size) :
    swapTile b (pointOf r1 c1) (pointOf r2 c2) = .ok (swapCells b r1 c1 r2 c2) := by
  simp [swapTile, pointOf, index_val, bind, Except.bind, pure, Except.pure]

theorem cellAt_pointOf (b : Board) (r c : Fin s_size) :
    cellAt b (pointOf r c) = .ok (b.m_board r c) := by
  simp [cellAt, pointOf, index_val, bind, Except.bind, pure, Except.pure]

/-! ### `findEmptyTile` and `getAdjacentPoint` -/

theorem findEmptyTile_of_scan_some {b : Board} {p : Point} (ndebug : Bool)
    (h : findEmptyTileScan b = some p) : findEmptyTile ndebug b = .ok p := by
  simp [findEmptyTile, h]

theorem findEmptyTile_ok_iff (ndebug : Bool) (b : Board) (E : Point) :
    findEmptyTile ndebug b = .ok E ↔
      findEmptyTileScan b = some E ∨
        (findEmptyTileScan b = none ∧ ndebug = true ∧ E = ⟨-1, -1⟩) := by
  unfold findEmptyTile
  cases hs : findEmptyTileScan b with
  | none =>
    cases ndebug <;>
      simp [assertFalse, bind, Except.bind, pure, Except.pure, eq_comm]
  | some p => simp

theorem getAdjacentPoint_sentinel (ndebug : Bool) (d : Direction) (A : Point)
    (h : Point.getAdjacentPoint ndebug ⟨-1, -1⟩ d = .ok A) : validPoint A = false := by
  obtain ⟨t⟩ := d
  cases t <;> cases ndebug <;>
    simp [Point.getAdjacentPoint, Direction.getType, assertFalse, bind, Except.bind, pure,
      Except.pure] at h <;> subst h <;> decide

/-! ### `moveTile` -/

theorem moveTile_of_invalid {ndebug : Bool} {b : Board} {d : Direction} {E A : Point}
    (hE : findEmptyTile ndebug b = .ok E) (hA : E.getAdjacentPoint ndebug d = .ok A)
    (hv : validPoint A = false) : moveTile ndebug b d = .ok (false, b) := by
  simp [moveTile, hE, hA, hv, bind, Except.bind, pure, Except.pure]

theorem moveTile_of_valid {ndebug : Bool} {b : Board} {d : Direction} {r c r' c' : Fin s_size}
    (hE : findEmptyTile ndebug b = .ok (pointOf r c))
    (hA : (pointOf r c).getAdjacentPoint ndebug d = .ok (pointOf r' c')) :
    moveTile ndebug b d = .ok (true, swapCells b r' c' r c) := by
  simp [moveTile, hE, hA, validPoint_pointOf, swapTile_pointOf, bind, Except.bind, pure,
    Except.pure]

/-- What `moveTile` does, given the two points it computes. -/
theorem moveTile_cases {ndebug : Bool} {b : Board} {d : Direction} {E A : Point}
    (hE : findEmptyTile ndebug b = .ok E) (hA : E.getAdjacentPoint ndebug d = .ok A) :
    (validPoint A = false ∧ moveTile ndebug b d = .ok (false, b)) ∨
      (∃ r c r' c', E = pointOf r c ∧ A = pointOf r' c' ∧ validPoint A = true ∧
        findEmptyTileScan b = some E ∧
        moveTile ndebug b d = .ok (true, swapCells b r' c' r c)) := by
  cases hv : validPoint A with
  | false => exact Or.inl ⟨rfl, moveTile_of_invalid hE hA hv⟩
  | true =>
    right
    rcases (findEmptyTile_ok_iff ndebug b E).mp hE with hs | ⟨_, _, rfl⟩
    · obtain ⟨r, c, hp, _⟩ := (findEmptyTileScan_eq_some b E).mp hs
      obtain ⟨r', c', hA'⟩ := (validPoint_iff A).mp hv
      subst hp hA'
      exact ⟨r, c, r', c', rfl, rfl, rfl, hs, moveTile_of_valid hE hA⟩
    · rw [getAdjacentPoint_sentinel ndebug d A hA] at hv
      exact absurd hv (by decide)

/-- Adding or subtracting one never gives the same `int` back. -/
theorem wrapInt32_step_ne (v : Int) : wrapInt32 (v + 1) ≠ v ∧ wrapInt32 (v - 1) ≠ v := by
  unfold wrapInt32; constructor <;> omega

/-- On an `int`, adding one and subtracting one undo each other, also across the
ends of the range. -/
theorem wrapInt32_step_back {v : Int} (h0 : -2147483648 ≤ v) (h1 : v ≤ 2147483647) :
    wrapInt32 (wrapInt32 (v + 1) - 1) = v ∧ wrapInt32 (wrapInt32 (v - 1) + 1) = v := by
  unfold wrapInt32; constructor <;> omega

theorem pointOf_inIntRange (r c : Fin s_size) : (pointOf r c).inIntRange := by
  have hr : r.val < 4 := r.isLt
  have hc : c.val < 4 := c.isLt
  simp only [Point.inIntRange, pointOf]
  omega

theorem getAdjacentPoint_ne_self {ndebug : Bool} {d : Direction} {E A : Point}
    (hd : d.isCompass) (hA : E.getAdjacentPoint ndebug d = .ok A) : A ≠ E := by
  obtain ⟨t⟩ := d
  obtain ⟨x, y⟩ := E
  cases t
  · have := Except.ok.inj hA
    subst this
    simpa using (wrapInt32_step_ne y).1
  · have := Except.ok.inj hA
    subst this
    simpa using (wrapInt32_step_ne y).2
  · have := Except.ok.inj hA
    subst this
    simpa using (wrapInt32_step_ne x).1
  · have := Except.ok.inj hA
    subst this
    simpa using (wrapInt32_step_ne x).2
  · exact absurd rfl hd

/-- The cells other than two distinct given ones are fourteen. -/
theorem card_other_cells {a b : Fin s_size × Fin s_size} (hab : a ≠ b) :
    (Finset.univ.filter fun q : Fin s_size × Fin s_size => q ≠ a ∧ q ≠ b).card = 14 := by
  have hcompl : (Finset.univ.filter fun q : Fin s_size × Fin s_size => ¬(q ≠ a ∧ q ≠ b))
      = {a, b} := by
    ext q
    simp only [Finset.mem_filter, Finset.mem_univ, true_and, Finset.mem_insert,
      Finset.mem_singleton]
    tauto
  have hsum := Finset.filter_card_add_filter_neg_card_eq_card
    (s := (Finset.univ : Finset (Fin s_size × Fin s_size))) (fun q => q ≠ a ∧ q ≠ b)
  rw [hcompl, Finset.card_pair hab] at hsum
  have huniv : (Finset.univ : Finset (Fin s_size × Fin s_size)).card = 16 := by decide
  omega

/-! ### Swapping two cells is a permutation of the cells -/

theorem swapCells_eq_comp_swap (b : Board) (r1 c1 r2 c2 : Fin s_size)
    (p : Fin s_size × Fin s_size) :
    (swapCells b r1 c1 r2 c2).m_board p.1 p.2 =
      b.m_board (Equiv.swap (r1, c1) (r2, c2) p).1 (Equiv.swap (r1, c1) (r2, c2) p).2 := by
  obtain ⟨i, j⟩ := p
  simp only [swapCells, Equiv.swap_apply_def, Prod.mk.injEq]
  split_ifs <;> rfl

theorem swapCells_swapCells (b : Board) (r1 c1 r2 c2 : Fin s_size) :
    swapCells (swapCells b r1 c1 r2 c2) r2 c2 r1 c1 = b := by
  apply ext_cells
  intro i j
  simp only [swapCells]
  split_ifs with h1 h2 h3 h4 h5 h6 <;> first
    | rfl
    | (obtain ⟨rfl, rfl⟩ := h1; rfl)
    | (obtain ⟨rfl, rfl⟩ := h4; rfl)
    | (exfalso; simp_all)

theorem labels_swapCells (b : Board) (r1 c1 r2 c2 : Fin s_size) :
    labels (swapCells b r1 c1 r2 c2) = labels b := by
  unfold labels
  have hfun : (fun p : Fin s_size × Fin s_size =>
      ((swapCells b r1 c1 r2 c2).m_board p.1 p.2).getNum) =
      (fun p : Fin s_size × Fin s_size => (b.m_board p.1 p.2).getNum) ∘
        (Equiv.swap (r1, c1) (r2, c2)) := by
    funext p
    simp only [Function.comp_apply, swapCells_eq_comp_swap]
  rw [hfun, ← Multiset.map_map, Multiset.map_univ_val_equiv]

theorem exactlyOneEmpty_swapCells (b : Board) (r1 c1 r2 c2 : Fin s_size) :
    ExactlyOneEmpty (swapCells b r1 c1 r2 c2) ↔ ExactlyOneEmpty b := by
  unfold ExactlyOneEmpty
  rw [(Equiv.swap (r1, c1) (r2, c2)).bijective.existsUnique_iff
    (p := fun q : Fin s_size × Fin s_size => (b.m_board q.1 q.2).isEmpty = true)]
  simp only [swapCells_eq_comp_swap]

/-! ### Every call returns on a board with an empty tile -/

theorem moveTile_ok_inv {ndebug : Bool} {b : Board} {d : Direction} {res : Bool × Board}
    (h : moveTile ndebug b d = .ok res) :
    ∃ E A, findEmptyTile ndebug b = .ok E ∧ E.getAdjacentPoint ndebug d = .ok A := by
  unfold moveTile at h
  cases hE : findEmptyTile ndebug b with
  | error e => simp [hE, bind, Except.bind] at h
  | ok E =>
    cases hA : E.getAdjacentPoint ndebug d with
    | error e => simp [hE, hA, bind, Except.bind] at h
    | ok A => exact ⟨E, A, rfl, hA⟩

/-- A call that returns leaves the board as it was or exchanges two cells. -/
theorem moveTile_board {ndebug : Bool} {b b' : Board} {d : Direction} {moved : Bool}
    (h : moveTile ndebug b d = .ok (moved, b')) :
    b' = b ∨ ∃ r c r' c', b' = swapCells b r' c' r c := by
  obtain ⟨E, A, hE, hA⟩ := moveTile_ok_inv h
  rcases moveTile_cases hE hA with ⟨_, hm⟩ | ⟨r, c, r', c', _, _, _, _, hm⟩
  · rw [hm] at h
    simp only [Except.ok.injEq, Prod.mk.injEq] at h
    exact Or.inl h.2.symm
  · rw [hm] at h
    simp only [Except.ok.injEq, Prod.mk.injEq] at h
    exact Or.inr ⟨r, c, r', c', h.2.symm⟩

theorem getAdjacentPoint_compass (ndebug : Bool) (E : Point) {d : Direction}
    (hd : d.isCompass) : ∃ A, E.getAdjacentPoint ndebug d = .ok A := by
  obtain ⟨t⟩ := d
  cases t <;> simp [Point.getAdjacentPoint, Direction.getType, Direction.isCompass] at hd ⊢

theorem moveTile_returns (ndebug : Bool) {b : Board} {d : Direction} {r c : Fin s_size}
    (he : (b.m_board r c).isEmpty = true) (hd : d.isCompass) :
    ∃ res, moveTile ndebug b d = .ok res := by
  cases hs : findEmptyTileScan b with
  | none =>
    have := (findEmptyTileScan_eq_none b).mp hs r c
    rw [he] at this
    exact absurd this (by decide)
  | some E =>
    have hE := findEmptyTile_of_scan_some ndebug hs
    obtain ⟨A, hA⟩ := getAdjacentPoint_compass ndebug E hd
    rcases moveTile_cases hE hA with ⟨_, hm⟩ | ⟨_, _, _, _, _, _, _, _, hm⟩
    · exact ⟨_, hm⟩
    · exact ⟨_, hm⟩

/-- On a board whose only empty cell is `(r, c)` the scan returns that cell. -/
theorem findEmptyTileScan_of_unique {b : Board} {r c : Fin s_size}
    (he : (b.m_board r c).isEmpty = true)
    (huniq : ∀ i j, (b.m_board i j).isEmpty = true → i = r ∧ j = c) :
    findEmptyTileScan b = some (pointOf r c) := by
  refine (findEmptyTileScan_eq_some b _).mpr ⟨r, c, rfl, he, fun x' hx' => ?_, fun y' hy' x' => ?_⟩
  · cases h : (b.m_board r x').isEmpty with
    | false => rfl
    | true => exact absurd (huniq r x' h).2 (ne_of_lt hx')
  · cases h : (b.m_board y' x').isEmpty with
    | false => rfl
    | true => exact absurd (huniq y' x' h).1 (ne_of_lt hy')

theorem getAdjacentPoint_neg {ndebug : Bool} {d : Direction} {E A : Point}
    (hd : d.isCompass) (hr : E.inIntRange) (hA : E.getAdjacentPoint ndebug d = .ok A) :
    ∃ d', Direction.neg ndebug d = .ok d' ∧ A.getAdjacentPoint ndebug d' = .ok E := by
  obtain ⟨t⟩ := d
  obtain ⟨x, y⟩ := E
  obtain ⟨⟨hx0, hx1⟩, hy0, hy1⟩ := hr
  simp only at hx0 hx1 hy0 hy1
  cases t
  · have := Except.ok.inj hA
    subst this
    refine ⟨⟨.down⟩, rfl, ?_⟩
    show Except.ok _ = Except.ok _
    rw [(wrapInt32_step_back hy0 hy1).1]
  · have := Except.ok.inj hA
    subst this
    refine ⟨⟨.up⟩, rfl, ?_⟩
    show Except.ok _ = Except.ok _
    rw [(wrapInt32_step_back hy0 hy1).2]
  · have := Except.ok.inj hA
    subst this
    refine ⟨⟨.right⟩, rfl, ?_⟩
    show Except.ok _ = Except.ok _
    rw [(wrapInt32_step_back hx0 hx1).1]
  · have := Except.ok.inj hA
    subst this
    refine ⟨⟨.left⟩, rfl, ?_⟩
    show Except.ok _ = Except.ok _
    rw [(wrapInt32_step_back hx0 hx1).2]
  · exact absurd rfl hd

/-! ### Sequences of calls -/

theorem moveTiles_cons_of_ok {ndebug : Bool} {b : Board} {d : Direction} {res : Bool × Board}
    (h : moveTile ndebug b d = .ok res) (ds : List Direction) :
    moveTiles ndebug b (d :: ds) = moveTiles ndebug res.2 ds := by
  simp [moveTiles, h, bind, Except.bind]

/-- A property of boards that holds only of boards with an empty cell and that
exchanging two cells keeps, holds after every sequence of calls with compass
directions, each of which returns. -/
theorem moveTiles_preserves (P : Board → Prop)
    (hswap : ∀ b r1 c1 r2 c2, P b → P (swapCells b r1 c1 r2 c2))
    (hempty : ∀ b, P b → ∃ r c, (b.m_board r c).isEmpty = true) (ndebug : Bool) :
    ∀ (ds : List Direction) (b : Board), P b → (∀ d ∈ ds, d.isCompass) →
      ∃ b', moveTiles ndebug b ds = .ok b' ∧ P b' := by
  intro ds
  induction ds with
  | nil => exact fun b hb _ => ⟨b, rfl, hb⟩
  | cons d ds ih =>
    intro b hb hds
    obtain ⟨r, c, he⟩ := hempty b hb
    obtain ⟨⟨moved, b1⟩, hm⟩ := moveTile_returns ndebug he (hds d (List.mem_cons_self _ _))
    have hb1 : P b1 := by
      rcases moveTile_board hm with h | ⟨r, c, r', c', h⟩
      · rw [h]; exact hb
      · rw [h]; exact hswap b _ _ _ _ hb
    obtain ⟨b', hb', hP⟩ := ih b1 hb1 (fun d' hd' => hds d' (List.mem_cons_of_mem _ hd'))
    exact ⟨b', by rw [moveTiles_cons_of_ok hm]; exact hb', hP⟩

theorem exists_empty_of_labels {b : Board} (h : labels b = allLabels) :
    ∃ r c, (b.m_board r c).isEmpty = true := by
  have h0 : (0 : Int) ∈ labels b := by rw [h]; decide
  obtain ⟨p, _, hp⟩ := Multiset.mem_map.mp h0
  exact ⟨p.1, p.2, by simpa [Tile.isEmpty, Tile.getNum] using hp⟩

theorem exists_empty_of_exactlyOne {b : Board} (h : ExactlyOneEmpty b) :
    ∃ r c, (b.m_board r c).isEmpty = true := by
  obtain ⟨p, hp, _⟩ := h
  exact ⟨p.1, p.2, hp⟩

/-! ### The comparison loops -/

/-- A loop that threads a flag through a list, where each step keeps the flag only
if a condition holds, ends with the flag set exactly when it started set and the
condition held at every element. -/
theorem foldl_flag_eq_true {α : Type} (g : Bool → α → Bool) (Q : α → Prop)
    (hg : ∀ acc x, g acc x = true ↔ acc = true ∧ Q x) (l : List α) (init : Bool) :
    l.foldl g init = true ↔ init = true ∧ ∀ x ∈ l, Q x := by
  induction l generalizing init with
  | nil => simp
  | cons a l ih =>
    rw [List.foldl_cons, ih, hg]
    simp only [List.mem_cons, forall_eq_or_imp]
    tauto

theorem operatorEq_eq_true (b1 b2 : Board) :
    operatorEq b1 b2 = true ↔
      ∀ i j, (b1.m_board i j).getNum = (b2.m_board i j).getNum := by
  unfold operatorEq
  rw [foldl_flag_eq_true _
    (fun i => ∀ j, (b1.m_board i j).getNum = (b2.m_board i j).getNum)]
  · simp [List.mem_finRange]
  · intro acc i
    rw [foldl_flag_eq_true _ (fun j => (b1.m_board i j).getNum = (b2.m_board i j).getNum)]
    · simp [List.mem_finRange]
    · intro acc' j
      by_cases h : (b1.m_board i j).getNum = (b2.m_board i j).getNum <;> simp [h]

end Board

/-! ## The properties -/

open Board

/-- C1: for every board and direction, with `E` the point `findEmptyTile` returns
and `A` the point `E.getAdjacentPoint(d)`, `moveTile(d)` returns, it returns `false`
exactly when `validPoint(A)` is false, and when it returns `false` every cell of the
board is as before. -/
theorem moveTile_false_iff_invalid (ndebug : Bool) (b : Board) (d : Direction) (E A : Point)
    (hE : findEmptyTile ndebug b = .ok E) (hA : E.getAdjacentPoint ndebug d = .ok A) :
    ∃ moved b', moveTile ndebug b d = .ok (moved, b') ∧
      (moved = false ↔ validPoint A = false) ∧
      (moved = false → ∀ i j, b'.m_board i j = b.m_board i j) := by
  rcases moveTile_cases hE hA with ⟨hv, hm⟩ | ⟨r, c, r', c', _, _, hv, _, hm⟩
  · exact ⟨false, b, hm, by simp [hv], fun _ _ _ => rfl⟩
  · exact ⟨true, _, hm, by simp [hv], fun h => absurd h (by decide)⟩

theorem moveTile_false_iff_invalid_witness :
    findEmptyTile false solved = .ok ⟨3, 3⟩ ∧
    Point.getAdjacentPoint false ⟨3, 3⟩ ⟨.up⟩ = .ok ⟨3, 4⟩ ∧
    ∃ moved b', moveTile false solved ⟨.up⟩ = .ok (moved, b') ∧
      (moved = false ↔ validPoint ⟨3, 4⟩ = false) ∧
      (moved = false → ∀ i j, b'.m_board i j = solved.m_board i j) :=
  ⟨by decide, by decide,
    moveTile_false_iff_invalid false solved ⟨.up⟩ ⟨3, 3⟩ ⟨3, 4⟩ (by decide) (by decide)⟩

/-- C2: on a board with exactly one empty tile, a call `moveTile(d)` with `d` one of
up, down, left, right that returns `true` exchanges two distinct cells: the tile that
was at the adjacent point `A` (a numbered tile) is at the old empty point `E`, a tile
of value 0 is at `A`, and the other cells, fourteen of them, are as before. -/
theorem moveTile_true_swaps_two (ndebug : Bool) (b b' : Board) (d : Direction) (E A : Point)
    (hone : ExactlyOneEmpty b) (hd : d.isCompass)
    (hE : findEmptyTile ndebug b = .ok E) (hA : E.getAdjacentPoint ndebug d = .ok A)
    (hm : moveTile ndebug b d = .ok (true, b')) :
    A ≠ E ∧
    (∃ t, cellAt b A = .ok t ∧ t.isEmpty = false ∧ cellAt b' E = .ok t) ∧
    (∃ z, cellAt b' A = .ok z ∧ z.getNum = 0) ∧
    (∀ i j, pointOf i j ≠ E → pointOf i j ≠ A → b'.m_board i j = b.m_board i j) ∧
    (Finset.univ.filter fun q : Fin s_size × Fin s_size =>
      pointOf q.1 q.2 ≠ E ∧ pointOf q.1 q.2 ≠ A).card = 14 := by
  have hne : A ≠ E := getAdjacentPoint_ne_self hd hA
  rcases moveTile_cases hE hA with ⟨_, hm'⟩ | ⟨r, c, r', c', rfl, rfl, _, hs, hm'⟩
  · rw [hm'] at hm
    simp at hm
  · rw [hm'] at hm
    simp only [Except.ok.injEq, Prod.mk.injEq, true_and] at hm
    subst hm
    obtain ⟨r0, c0, hp, hempty, _, _⟩ := (findEmptyTileScan_eq_some b _).mp hs
    obtain ⟨rfl, rfl⟩ := pointOf_injective hp
    have hcell : ¬(r = r' ∧ c = c') := fun h => hne (by rw [h.1, h.2])
    have hcell' : ¬(r' = r ∧ c' = c) := fun h => hne (by rw [h.1, h.2])
    obtain ⟨u, _, huniq⟩ := hone
    refine ⟨hne, ⟨b.m_board r' c', cellAt_pointOf b r' c', ?_, ?_⟩, ⟨b.m_board r c, ?_, ?_⟩,
      fun i j hi hj => ?_, ?_⟩
    · cases he : (b.m_board r' c').isEmpty with
      | false => rfl
      | true =>
        have h1 := huniq (r', c') he
        have h2 := huniq (r, c) hempty
        rw [← h2] at h1
        exact absurd ⟨congrArg Prod.fst h1, congrArg Prod.snd h1⟩ hcell'
    · rw [cellAt_pointOf]
      simp [swapCells, hcell]
    · rw [cellAt_pointOf]
      simp [swapCells]
    · simpa [Tile.isEmpty, Tile.getNum] using hempty
    · have h1 : ¬(i = r' ∧ j = c') := fun h => hj (by rw [h.1, h.2])
      have h2 : ¬(i = r ∧ j = c) := fun h => hi (by rw [h.1, h.2])
      simp [swapCells, h1, h2]
    · have hab : ((r, c) : Fin s_size × Fin s_size) ≠ (r', c') := fun h =>
        hcell ⟨congrArg Prod.fst h, congrArg Prod.snd h⟩
      rw [← card_other_cells hab]
      congr 1
      ext q
      simp only [Finset.mem_filter, Finset.mem_univ, true_and, ne_eq]
      constructor
      · rintro ⟨h1, h2⟩
        exact ⟨fun h => h1 (by rw [h]), fun h => h2 (by rw [h])⟩
      · rintro ⟨h1, h2⟩
        exact ⟨fun h => h1 (Prod.ext (pointOf_injective h).1 (pointOf_injective h).2),
          fun h => h2 (Prod.ext (pointOf_injective h).1 (pointOf_injective h).2)⟩

theorem moveTile_true_swaps_two_witness :
    ExactlyOneEmpty solved ∧ (Direction.mk .down).isCompass ∧
    findEmptyTile false solved = .ok ⟨3, 3⟩ ∧
    Point.getAdjacentPoint false ⟨3, 3⟩ ⟨.down⟩ = .ok ⟨3, 2⟩ ∧
    moveTile false solved ⟨.down⟩ = .ok (true, swapCells solved 2 3 3 3) ∧
    ((⟨3, 2⟩ : Point) ≠ ⟨3, 3⟩ ∧
      (∃ t, cellAt solved ⟨3, 2⟩ = .ok t ∧ t.isEmpty = false ∧
        cellAt (swapCells solved 2 3 3 3) ⟨3, 3⟩ = .ok t) ∧
      (∃ z, cellAt (swapCells solved 2 3 3 3) ⟨3, 2⟩ = .ok z ∧ z.getNum = 0) ∧
      (∀ i j, pointOf i j ≠ ⟨3, 3⟩ → pointOf i j ≠ ⟨3, 2⟩ →
        (swapCells solved 2 3 3 3).m_board i j = solved.m_board i j) ∧
      (Finset.univ.filter fun q : Fin s_size × Fin s_size =>
        pointOf q.1 q.2 ≠ ⟨3, 3⟩ ∧ pointOf q.1 q.2 ≠ ⟨3, 2⟩).card = 14) :=
  ⟨by decide, by decide, by decide, by decide, by decide,
    moveTile_true_swaps_two false solved (swapCells solved 2 3 3 3) ⟨.down⟩ ⟨3, 3⟩ ⟨3, 2⟩
      (by decide) (by decide) (by decide) (by decide) (by decide)⟩

/-- C3: label conservation. On a board whose multiset of tile values is
`{0, ..., 15}`, after each call of a sequence of `moveTile` calls with directions
among up, down, left, right (that is, after the first `k` calls, for every `k`) the
calls have all returned and the multiset of tile values is still `{0, ..., 15}`. -/
theorem labels_conserved (ndebug : Bool) (b : Board) (ds : List Direction) (k : Nat)
    (hb : labels b = allLabels) (hds : ∀ d ∈ ds, d.isCompass) :
    ∃ b', moveTiles ndebug b (ds.take k) = .ok b' ∧ labels b' = allLabels :=
  moveTiles_preserves (fun b => labels b = allLabels)
    (fun b r1 c1 r2 c2 h => (labels_swapCells b r1 c1 r2 c2).trans h)
    (fun _ h => exists_empty_of_labels h) ndebug (ds.take k) b hb
    (fun d hd => hds d (List.mem_of_mem_take hd))

theorem labels_conserved_witness :
    labels solved = allLabels ∧
    (∀ d ∈ [Direction.mk .up, ⟨.down⟩, ⟨.left⟩, ⟨.right⟩], d.isCompass) ∧
    ∃ b', moveTiles false solved
        ([Direction.mk .up, ⟨.down⟩, ⟨.left⟩, ⟨.right⟩].take 3) = .ok b' ∧
      labels b' = allLabels :=
  ⟨by decide, by decide,
    labels_conserved false solved [⟨.up⟩, ⟨.down⟩, ⟨.left⟩, ⟨.right⟩] 3 (by decide) (by decide)⟩

/-- C4: single empty invariant. Every sequence of `moveTile` calls with directions
among up, down, left, right, started on the default-constructed board, returns, and
the board it reaches has exactly one cell whose tile is empty (value 0). -/
theorem single_empty_invariant (ndebug : Bool) (ds : List Direction)
    (hds : ∀ d ∈ ds, d.isCompass) :
    ∃ b, moveTiles ndebug solved ds = .ok b ∧ ExactlyOneEmpty b :=
  moveTiles_preserves ExactlyOneEmpty
    (fun b r1 c1 r2 c2 h => (exactlyOneEmpty_swapCells b r1 c1 r2 c2).mpr h)
    (fun _ h => exists_empty_of_exactlyOne h) ndebug ds solved (by decide) hds

theorem single_empty_invariant_witness :
    (∀ d ∈ [Direction.mk .down, ⟨.right⟩, ⟨.right⟩, ⟨.up⟩], d.isCompass) ∧
    ∃ b, moveTiles false solved [⟨.down⟩, ⟨.right⟩, ⟨.right⟩, ⟨.up⟩] = .ok b ∧
      ExactlyOneEmpty b :=
  ⟨by decide, single_empty_invariant false [⟨.down⟩, ⟨.right⟩, ⟨.right⟩, ⟨.up⟩] (by decide)⟩

/-- C5: inverse consistency. On a board with exactly one empty tile, if
`moveTile(D)` with `D` one of up, down, left, right returns `true`, then `-D` is
computed without fault and `moveTile(-D)` on the resulting board returns `true` and
leaves the board equal, cell for cell, to the board before the first move. -/
theorem move_then_inverse_restores (ndebug : Bool) (b b1 : Board) (d : Direction)
    (hone : ExactlyOneEmpty b) (hd : d.isCompass)
    (hm : moveTile ndebug b d = .ok (true, b1)) :
    ∃ d' b2, Direction.neg ndebug d = .ok d' ∧ moveTile ndebug b1 d' = .ok (true, b2) ∧
      ∀ i j, b2.m_board i j = b.m_board i j := by
  obtain ⟨E, A, hE, hA⟩ := moveTile_ok_inv hm
  have hne : A ≠ E := getAdjacentPoint_ne_self hd hA
  rcases moveTile_cases hE hA with ⟨_, hm'⟩ | ⟨r, c, r', c', rfl, rfl, _, hs, hm'⟩
  · rw [hm'] at hm
    simp at hm
  · rw [hm'] at hm
    simp only [Except.ok.injEq, Prod.mk.injEq, true_and] at hm
    subst hm
    obtain ⟨r0, c0, hp, hempty, _, _⟩ := (findEmptyTileScan_eq_some b _).mp hs
    obtain ⟨rfl, rfl⟩ := pointOf_injective hp
    have hcell : ¬(r = r' ∧ c = c') := fun h => hne (by rw [h.1, h.2])
    obtain ⟨u, _, huniq⟩ := hone
    have hu : u = (r, c) := (huniq (r, c) hempty).symm
    subst hu
    -- the empty tile of the new board is at `A`, and nowhere else
    have hscan : findEmptyTileScan (swapCells b r' c' r c) = some (pointOf r' c') := by
      apply findEmptyTileScan_of_unique
      · simpa [swapCells] using hempty
      · intro i j hij
        by_contra hcon
        simp only [swapCells, hcon, if_false] at hij
        split_ifs at hij with h1
        · have := huniq (r', c') hij
          exact hcell ⟨(congrArg Prod.fst this).symm, (congrArg Prod.snd this).symm⟩
        · have := huniq (i, j) hij
          exact h1 ⟨congrArg Prod.fst this, congrArg Prod.snd this⟩
    obtain ⟨d', hneg, hback⟩ := getAdjacentPoint_neg hd (pointOf_inIntRange r c) hA
    refine ⟨d', _, hneg, moveTile_of_valid (findEmptyTile_of_scan_some ndebug hscan) hback, ?_⟩
    intro i j
    rw [swapCells_swapCells]

theorem move_then_inverse_restores_witness :
    ExactlyOneEmpty solved ∧ (Direction.mk .down).isCompass ∧
    moveTile false solved ⟨.down⟩ = .ok (true, swapCells solved 2 3 3 3) ∧
    ∃ d' b2, Direction.neg false ⟨.down⟩ = .ok d' ∧
      moveTile false (swapCells solved 2 3 3 3) d' = .ok (true, b2) ∧
      ∀ i j, b2.m_board i j = solved.m_board i j :=
  ⟨by decide, by decide, by decide,
    move_then_inverse_restores false solved (swapCells solved 2 3 3 3) ⟨.down⟩
      (by decide) (by decide) (by decide)⟩

/-- C6: `operator==` returns `true` exactly when, for every row `i` and column
`j`, the two boards hold the same numeric label at `[i][j]`; a difference at any one
position, wherever it is, makes the result `false`. -/
theorem operatorEq_iff_all_cells_equal (b1 b2 : Board) :
    (operatorEq b1 b2 = true ↔
      ∀ i j, (b1.m_board i j).getNum = (b2.m_board i j).getNum) ∧
    (operatorEq b1 b2 = false ↔
      ∃ i j, (b1.m_board i j).getNum ≠ (b2.m_board i j).getNum) := by
  refine ⟨operatorEq_eq_true b1 b2, ?_⟩
  rw [← Bool.not_eq_true, operatorEq_eq_true]
  push_neg
  rfl

/-- C7: the solved layout compares equal to itself, and for any two distinct
in-bounds points `swapTile` on the solved layout returns a board that compares
unequal to the solved layout. -/
theorem solved_win_detection (p1 p2 : Point) (h1 : validPoint p1 = true)
    (h2 : validPoint p2 = true) (hne : p1 ≠ p2) :
    operatorEq solved solved = true ∧
    ∃ b', swapTile solved p1 p2 = .ok b' ∧ operatorEq b' solved = false := by
  refine ⟨by decide, ?_⟩
  obtain ⟨r1, c1, rfl⟩ := (validPoint_iff p1).mp h1
  obtain ⟨r2, c2, rfl⟩ := (validPoint_iff p2).mp h2
  refine ⟨_, swapTile_pointOf solved r1 c1 r2 c2, ?_⟩
  have hcell : ¬(r1 = r2 ∧ c1 = c2) := fun h => hne (by rw [h.1, h.2])
  have key : ∀ r1 c1 r2 c2 : Fin s_size, ¬(r1 = r2 ∧ c1 = c2) →
      operatorEq (swapCells solved r1 c1 r2 c2) solved = false := by decide
  exact key r1 c1 r2 c2 hcell

theorem solved_win_detection_witness :
    validPoint ⟨0, 0⟩ = true ∧ validPoint ⟨1, 0⟩ = true ∧ (⟨0, 0⟩ : Point) ≠ ⟨1, 0⟩ ∧
    operatorEq solved solved = true ∧
    ∃ b', swapTile solved ⟨0, 0⟩ ⟨1, 0⟩ = .ok b' ∧ operatorEq b' solved = false :=
  ⟨by decide, by decide, by decide,
    solved_win_detection ⟨0, 0⟩ ⟨1, 0⟩ (by decide) (by decide) (by decide)⟩

/-- C8: illegal edge moves from the solved layout. On the default-constructed
board `findEmptyTile` returns `Point{x = 3, y = 3}`; the adjacency formula gives
`(3, 4)` for up and `(4, 3)` for left, and for these two directions `moveTile`
returns `false` and leaves the solved layout; it gives `(3, 2)` for down and
`(2, 3)` for right, for which `moveTile` returns `true`; and of the four values of
the shuffle draw two leave the board unshuffled. -/
theorem solved_illegal_edge_moves (ndebug : Bool) :
    findEmptyTile ndebug solved = .ok ⟨3, 3⟩ ∧
    Point.getAdjacentPoint ndebug ⟨3, 3⟩ ⟨.up⟩ = .ok ⟨3, 4⟩ ∧
    Point.getAdjacentPoint ndebug ⟨3, 3⟩ ⟨.left⟩ = .ok ⟨4, 3⟩ ∧
    Point.getAdjacentPoint ndebug ⟨3, 3⟩ ⟨.down⟩ = .ok ⟨3, 2⟩ ∧
    Point.getAdjacentPoint ndebug ⟨3, 3⟩ ⟨.right⟩ = .ok ⟨2, 3⟩ ∧
    moveTile ndebug solved ⟨.up⟩ = .ok (false, solved) ∧
    moveTile ndebug solved ⟨.left⟩ = .ok (false, solved) ∧
    (∃ b', moveTile ndebug solved ⟨.down⟩ = .ok (true, b') ∧ operatorEq b' solved = false) ∧
    (∃ b', moveTile ndebug solved ⟨.right⟩ = .ok (true, b') ∧ operatorEq b' solved = false) ∧
    (Finset.univ.filter fun draw : Fin 4 =>
      moveTile ndebug solved (Direction.random draw) = .ok (false, solved)).card = 2 ∧
    (Finset.univ.filter fun draw : Fin 4 =>
      (moveTile ndebug solved (Direction.random draw)).map Prod.fst = .ok true).card = 2 := by
  have hup : moveTile ndebug solved ⟨.up⟩ = .ok (false, solved) := by cases ndebug <;> decide
  have hleft : moveTile ndebug solved ⟨.left⟩ = .ok (false, solved) := by
    cases ndebug <;> decide
  have hdown : moveTile ndebug solved ⟨.down⟩ = .ok (true, swapCells solved 2 3 3 3) := by
    cases ndebug <;> decide
  have hright : moveTile ndebug solved ⟨.right⟩ = .ok (true, swapCells solved 3 2 3 3) := by
    cases ndebug <;> decide
  have hr0 : Direction.random 0 = ⟨.up⟩ := by decide
  have hr1 : Direction.random 1 = ⟨.down⟩ := by decide
  have hr2 : Direction.random 2 = ⟨.left⟩ := by decide
  have hr3 : Direction.random 3 = ⟨.right⟩ := by decide
  have hfalse : (Finset.univ.filter fun draw : Fin 4 =>
      moveTile ndebug solved (Direction.random draw) = .ok (false, solved)) = {0, 2} := by
    ext draw
    fin_cases draw <;> simp [hr0, hr1, hr2, hr3, hup, hleft, hdown, hright]
  have htrue : (Finset.univ.filter fun draw : Fin 4 =>
      (moveTile ndebug solved (Direction.random draw)).map Prod.fst = .ok true) = {1, 3} := by
    ext draw
    fin_cases draw <;> simp [hr0, hr1, hr2, hr3, hup, hleft, hdown, hright, Except.map]
  refine ⟨by cases ndebug <;> decide, by cases ndebug <;> decide, by cases ndebug <;> decide,
    by cases ndebug <;> decide, by cases ndebug <;> decide, hup, hleft,
    ⟨_, hdown, by decide⟩, ⟨_, hright, by decide⟩, ?_, ?_⟩
  · rw [hfalse]; decide
  · rw [htrue]; decide

/-- C9, as stated, fails: on the default-constructed board it is not the case that
exactly one of up, down, left, right makes `moveTile` return `true`; down and right
both do. -/
theorem solved_legal_direction_not_unique :
    ¬ ∃! d : Direction, d.isCompass ∧ (moveTile false solved d).map Prod.fst = .ok true := by
  rintro ⟨d, _, huniq⟩
  have h1 : (⟨.down⟩ : Direction) = d := huniq ⟨.down⟩ ⟨by decide, by decide⟩
  have h2 : (⟨.right⟩ : Direction) = d := huniq ⟨.right⟩ ⟨by decide, by decide⟩
  exact absurd (h1.trans h2.symm) (by decide)

/-- C9, amended: on the default-constructed board exactly two of up, down, left,
right make `moveTile` return `true`, namely down and right. Applying either one
exchanges two cells (the resulting board differs from the solved layout in exactly
two cells), and applying its inverse (up, respectively left) then returns `true` and
leaves exactly the solved layout. -/
theorem solved_two_legal_directions (ndebug : Bool) :
    (List.ofFn Direction.directionTypes).filter
        (fun t => (moveTile ndebug solved ⟨t⟩).map Prod.fst = .ok true)
      = [DirectionType.down, DirectionType.right] ∧
    moveTile ndebug solved ⟨.down⟩ = .ok (true, swapCells solved 2 3 3 3) ∧
    (Finset.univ.filter fun q : Fin s_size × Fin s_size =>
      (swapCells solved 2 3 3 3).m_board q.1 q.2 ≠ solved.m_board q.1 q.2).card = 2 ∧
    Direction.neg ndebug ⟨.down⟩ = .ok ⟨.up⟩ ∧
    moveTile ndebug (swapCells solved 2 3 3 3) ⟨.up⟩ = .ok (true, solved) ∧
    moveTile ndebug solved ⟨.right⟩ = .ok (true, swapCells solved 3 2 3 3) ∧
    (Finset.univ.filter fun q : Fin s_size × Fin s_size =>
      (swapCells solved 3 2 3 3).m_board q.1 q.2 ≠ solved.m_board q.1 q.2).card = 2 ∧
    Direction.neg ndebug ⟨.right⟩ = .ok ⟨.left⟩ ∧
    moveTile ndebug (swapCells solved 3 2 3 3) ⟨.left⟩ = .ok (true, solved) := by
  cases ndebug <;> decide

/-- C10: on a board with at least one empty cell `findEmptyTile` returns
`Point{x = column, y = row}` of the first empty cell in row-major order: the point is
in bounds, the cell it names is empty, and no cell of an earlier row, or of the same
row and an earlier column, is empty. The loops do not fall through to the assertion,
and the point is not `Point{-1, -1}`. If the board has exactly one empty tile, the
point returned is the coordinate of that tile. -/
theorem findEmptyTile_first_empty (ndebug : Bool) (b : Board)
    (h : ∃ r c, (b.m_board r c).isEmpty = true) :
    ∃ r c, findEmptyTile ndebug b = .ok ⟨(c.val : Int), (r.val : Int)⟩ ∧
      validPoint ⟨(c.val : Int), (r.val : Int)⟩ = true ∧
      (b.m_board r c).isEmpty = true ∧
      (∃ t, cellAt b ⟨(c.val : Int), (r.val : Int)⟩ = .ok t ∧ t.getNum = 0) ∧
      (∀ r' c', (r' < r ∨ (r' = r ∧ c' < c)) → (b.m_board r' c').isEmpty = false) ∧
      findEmptyTileScan b ≠ none ∧
      (⟨(c.val : Int), (r.val : Int)⟩ : Point) ≠ ⟨-1, -1⟩ ∧
      (ExactlyOneEmpty b → ∀ r' c', (b.m_board r' c').isEmpty = true → r' = r ∧ c' = c) := by
  obtain ⟨r0, c0, h0⟩ := h
  cases hs : findEmptyTileScan b with
  | none =>
    have := (findEmptyTileScan_eq_none b).mp hs r0 c0
    rw [h0] at this
    exact absurd this (by decide)
  | some E =>
    obtain ⟨r, c, rfl, he, hrow, hprev⟩ := (findEmptyTileScan_eq_some b E).mp hs
    refine ⟨r, c, findEmptyTile_of_scan_some ndebug hs, validPoint_pointOf r c, he,
      ⟨b.m_board r c, cellAt_pointOf b r c, ?_⟩, ?_, by simp, ?_, ?_⟩
    · simpa [Tile.isEmpty, Tile.getNum] using he
    · rintro r' c' (hlt | ⟨rfl, hlt⟩)
      · exact hprev r' hlt c'
      · exact hrow c' hlt
    · intro hcon
      simp only [Point.mk.injEq] at hcon
      omega
    · rintro ⟨u, _, huniq⟩ r' c' he'
      have h1 := huniq (r', c') he'
      have h2 := huniq (r, c) he
      rw [← h2] at h1
      exact ⟨congrArg Prod.fst h1, congrArg Prod.snd h1⟩

theorem findEmptyTile_first_empty_witness :
    (∃ r c, ((swapCells solved 0 1 3 3).m_board r c).isEmpty = true) ∧
    ∃ r c : Fin s_size,
      findEmptyTile false (swapCells solved 0 1 3 3) = .ok ⟨(c.val : Int), (r.val : Int)⟩ ∧
      validPoint ⟨(c.val : Int), (r.val : Int)⟩ = true ∧
      ((swapCells solved 0 1 3 3).m_board r c).isEmpty = true ∧
      (∃ t, cellAt (swapCells solved 0 1 3 3) ⟨(c.val : Int), (r.val : Int)⟩ = .ok t ∧
        t.getNum = 0) ∧
      (∀ r' c', (r' < r ∨ (r' = r ∧ c' < c)) →
        ((swapCells solved 0 1 3 3).m_board r' c').isEmpty = false) ∧
      findEmptyTileScan (swapCells solved 0 1 3 3) ≠ none ∧
      (⟨(c.val : Int), (r.val : Int)⟩ : Point) ≠ ⟨-1, -1⟩ ∧
      (ExactlyOneEmpty (swapCells solved 0 1 3 3) →
        ∀ r' c', ((swapCells solved 0 1 3 3).m_board r' c').isEmpty = true → r' = r ∧ c' = c) :=
  ⟨by decide, findEmptyTile_first_empty false (swapCells solved 0 1 3 3) (by decide)⟩

/-- C11: `operator-` maps up to down, down to up, left to right and right to
left; so for each of the four directions `d` it returns without reaching the
assertion after the switch (in either build), `-d` is again one of the four,
`-(-d) = d` and `-d ≠ d`. -/
theorem neg_fixed_point_free_involution (ndebug : Bool) (d : Direction) (hd : d.isCompass) :
    (Direction.neg ndebug ⟨.up⟩ = .ok ⟨.down⟩ ∧ Direction.neg ndebug ⟨.down⟩ = .ok ⟨.up⟩ ∧
      Direction.neg ndebug ⟨.left⟩ = .ok ⟨.right⟩ ∧
      Direction.neg ndebug ⟨.right⟩ = .ok ⟨.left⟩) ∧
    ∃ d', Direction.neg ndebug d = .ok d' ∧ d'.isCompass ∧
      Direction.neg ndebug d' = .ok d ∧ d' ≠ d := by
  refine ⟨⟨rfl, rfl, rfl, rfl⟩, ?_⟩
  obtain ⟨t⟩ := d
  cases t
  · exact ⟨⟨.down⟩, rfl, by decide, rfl, by decide⟩
  · exact ⟨⟨.up⟩, rfl, by decide, rfl, by decide⟩
  · exact ⟨⟨.right⟩, rfl, by decide, rfl, by decide⟩
  · exact ⟨⟨.left⟩, rfl, by decide, rfl, by decide⟩
  · exact absurd rfl hd

theorem neg_fixed_point_free_involution_witness :
    (Direction.mk .left).isCompass ∧
    (Direction.neg false ⟨.up⟩ = .ok ⟨.down⟩ ∧ Direction.neg false ⟨.down⟩ = .ok ⟨.up⟩ ∧
      Direction.neg false ⟨.left⟩ = .ok ⟨.right⟩ ∧
      Direction.neg false ⟨.right⟩ = .ok ⟨.left⟩) ∧
    ∃ d', Direction.neg false ⟨.left⟩ = .ok d' ∧ d'.isCompass ∧
      Direction.neg false d' = .ok ⟨.left⟩ ∧ d' ≠ ⟨.left⟩ :=
  ⟨by decide, neg_fixed_point_free_involution false ⟨.left⟩ (by decide)⟩

/-- C13, as stated, fails: it is not the case that every tile value in `0..15`
is written as three characters; the tile 5 is written as the four characters
`"  5 "`, and the first row of the solved board takes 16 characters, not 12. -/
theorem tile_text_not_three_characters :
    ¬ (∀ v : Int, 0 ≤ v → v ≤ 15 → (Tile.operatorOut ⟨v⟩).length = 3) ∧
    Tile.operatorOut ⟨5⟩ = "  5 " ∧
    (Board.operatorOutRow solved 0).length = 16 := by
  refine ⟨fun h => ?_, by decide, by decide⟩
  have h5 := h 5 (by decide) (by decide)
  exact absurd h5 (by decide)

/-- C13, amended: every numbered tile, of value `1..15`, is written as exactly four
characters: a blank, the numeral padded with a blank on the left to two
characters, and a blank. So a row of the board that holds numbered tiles only is
written as `4 * 4` characters before its newline. -/
theorem numbered_tile_text_four_characters (t : Tile) (b : Board) (i : Fin s_size)
    (h1 : 1 ≤ t.getNum) (h15 : t.getNum ≤ 15)
    (hrow : ∀ j, 1 ≤ (b.m_board i j).getNum ∧ (b.m_board i j).getNum ≤ 15) :
    t.operatorOut.length = 4 ∧
    t.operatorOut =
      " " ++ ((if t.getNum < 10 then " " else "") ++ toString t.getNum) ++ " " ∧
    (Board.operatorOutRow b i).length = 4 * 4 := by
  have key : ∀ u : Tile, 1 ≤ u.getNum → u.getNum ≤ 15 →
      u.operatorOut.length = 4 ∧
      u.operatorOut =
        " " ++ ((if u.getNum < 10 then " " else "") ++ toString u.getNum) ++ " " := by
    rintro ⟨v⟩ hv1 hv15
    simp only [Tile.getNum] at hv1 hv15
    interval_cases v <;> exact ⟨by decide, by decide⟩
  refine ⟨(key t h1 h15).1, (key t h1 h15).2, ?_⟩
  have hfin : List.finRange s_size = [0, 1, 2, 3] := by decide
  simp only [Board.operatorOutRow, hfin, List.foldl_cons, List.foldl_nil, String.length_append,
    (key _ (hrow 0).1 (hrow 0).2).1, (key _ (hrow 1).1 (hrow 1).2).1,
    (key _ (hrow 2).1 (hrow 2).2).1, (key _ (hrow 3).1 (hrow 3).2).1]
  decide

theorem numbered_tile_text_four_characters_witness :
    (1 : Int) ≤ (Tile.mk 12).getNum ∧ (Tile.mk 12).getNum ≤ 15 ∧
    (∀ j, 1 ≤ (solved.m_board 2 j).getNum ∧ (solved.m_board 2 j).getNum ≤ 15) ∧
    (Tile.mk 12).operatorOut.length = 4 ∧
    (Tile.mk 12).operatorOut =
      " " ++ ((if (Tile.mk 12).getNum < 10 then " " else "") ++
        toString (Tile.mk 12).getNum) ++ " " ∧
    (Board.operatorOutRow solved 2).length = 4 * 4 :=
  ⟨by decide, by decide, by decide,
    numbered_tile_text_four_characters ⟨12⟩ solved 2 (by decide) (by decide) (by decide)⟩

/-! ### The session loop -/

theorem getCommandFromUser_valid {c : Char} (rest : List Char)
    (h : UserInput.validInput c = true) :
    UserInput.getCommandFromUser (c :: rest) = some (c, rest) := by
  have h0 : UserInput.validInput (Char.ofNat 0) = false := by decide
  cases rest <;> simp [UserInput.getCommandFromUser, UserInput.getCommandLoop, h, h0]

theorem mainLoop_won {ndebug : Bool} {board2 board : Board} (fuel : Nat) (stream : List Char)
    (printed : List Printed) (h : Board.operatorEq board board2 = true) :
    mainLoop ndebug board2 (fuel + 1) board stream printed =
      .ok ⟨printed ++ [.text "\n\nYou won!\n\n"], stream, .exit0⟩ := by
  simp [mainLoop, h]

theorem mainLoop_quit {ndebug : Bool} {board2 board : Board} (fuel : Nat) (rest : List Char)
    (printed : List Printed) (h : Board.operatorEq board board2 = false) :
    mainLoop ndebug board2 (fuel + 1) board ('q' :: rest) printed =
      .ok ⟨printed ++ [.text "\n\nBye!\n\n"], rest, .exit0⟩ := by
  simp [mainLoop, h, getCommandFromUser_valid rest (by decide : UserInput.validInput 'q' = true)]

theorem mainLoop_move {ndebug : Bool} {board2 board board' : Board} {c : Char} {d : Direction}
    {moved : Bool} (fuel : Nat) (rest : List Char) (printed : List Printed)
    (h : Board.operatorEq board board2 = false) (hv : UserInput.validInput c = true)
    (hc : c ≠ 'q') (hd : UserInput.convert ndebug c = .ok d)
    (hm : Board.moveTile ndebug board d = .ok (moved, board')) :
    mainLoop ndebug board2 (fuel + 1) board (c :: rest) printed =
      mainLoop ndebug board2 fuel board' rest
        (if moved then printed ++ [.board board'] else printed) := by
  simp [mainLoop, h, getCommandFromUser_valid rest hv, hc, hd, hm, bind, Except.bind]

theorem boardAfter_cons_inv {ndebug : Bool} {b b' : Board} {c : Char} {cs : List Char}
    (h : boardAfter ndebug b (c :: cs) = .ok b') :
    ∃ d moved b1, UserInput.convert ndebug c = .ok d ∧
      Board.moveTile ndebug b d = .ok (moved, b1) ∧ boardAfter ndebug b1 cs = .ok b' := by
  unfold boardAfter at h
  cases hd : UserInput.convert ndebug c with
  | error e => simp [hd, bind, Except.bind] at h
  | ok d =>
    cases hm : Board.moveTile ndebug b d with
    | error e => simp [hd, hm, bind, Except.bind] at h
    | ok r =>
      obtain ⟨moved, b1⟩ := r
      refine ⟨d, moved, b1, rfl, hm, ?_⟩
      simpa [hd, hm, bind, Except.bind] using h

/-- While the live board stays unsolved, the loop takes the move commands one by
one, printing boards only, and ends on the quit character. -/
theorem mainLoop_quit_after_moves (ndebug : Bool) (board2 : Board) (rest : List Char) :
    ∀ (cmds : List Char) (board : Board) (printed : List Printed) (fuel : Nat),
      cmds.length < fuel →
      (∀ c ∈ cmds, c = 'w' ∨ c = 'a' ∨ c = 's' ∨ c = 'd') →
      (∀ k, k ≤ cmds.length → ∃ b, boardAfter ndebug board (cmds.take k) = .ok b ∧
        Board.operatorEq b board2 = false) →
      ∃ boards : List Board,
        mainLoop ndebug board2 fuel board (cmds ++ 'q' :: rest) printed =
          .ok ⟨printed ++ boards.map Printed.board ++ [.text "\n\nBye!\n\n"], rest, .exit0⟩ := by
  intro cmds
  induction cmds with
  | nil =>
    intro board printed fuel hfuel _ hunsolved
    obtain ⟨f, rfl⟩ : ∃ f, fuel = f + 1 := ⟨fuel - 1, by simp at hfuel; omega⟩
    obtain ⟨b, hb, hne⟩ := hunsolved 0 (Nat.le_refl _)
    simp only [List.take_zero, boardAfter, Except.ok.injEq] at hb
    subst hb
    exact ⟨[], by simp [mainLoop_quit f rest printed hne]⟩
  | cons c cs ih =>
    intro board printed fuel hfuel hkeys hunsolved
    obtain ⟨f, rfl⟩ : ∃ f, fuel = f + 1 := ⟨fuel - 1, by simp at hfuel; omega⟩
    obtain ⟨b, hb, hne⟩ := hunsolved 0 (Nat.zero_le _)
    simp only [List.take_zero, boardAfter, Except.ok.injEq] at hb
    subst hb
    obtain ⟨b1', hb1', _⟩ := hunsolved 1 (by simp)
    obtain ⟨d, moved, b1, hd, hm, _⟩ := boardAfter_cons_inv (by simpa using hb1')
    have hkey := hkeys c (List.mem_cons_self _ _)
    have hv : UserInput.validInput c = true := by
      rcases hkey with h | h | h | h <;> subst h <;> decide
    have hq : c ≠ 'q' := by
      rcases hkey with h | h | h | h <;> subst h <;> decide
    have hrest : ∀ k, k ≤ cs.length → ∃ b, boardAfter ndebug b1 (cs.take k) = .ok b ∧
        Board.operatorEq b board2 = false := by
      intro k hk
      obtain ⟨b2, hb2, hne2⟩ := hunsolved (k + 1) (by simpa using hk)
      obtain ⟨d', moved', b1'', hd', hm', hafter⟩ :=
        boardAfter_cons_inv (by simpa using hb2)
      rw [hd] at hd'
      cases hd'
      rw [hm] at hm'
      cases hm'
      exact ⟨b2, hafter, hne2⟩
    obtain ⟨boards, hboards⟩ := ih b1 (if moved then printed ++ [.board b1] else printed) f
      (by simp at hfuel; omega) (fun c' hc' => hkeys c' (List.mem_cons_of_mem _ hc')) hrest
    rw [List.cons_append, mainLoop_move f _ printed hne hv hq hd hm, hboards]
    cases moved
    · exact ⟨boards, by simp⟩
    · exact ⟨b1 :: boards, by simp⟩

theorem moveTile_solved_up (ndebug : Bool) :
    Board.moveTile ndebug solved ⟨.up⟩ = .ok (false, solved) := by
  cases ndebug <;> decide

theorem moveTile_solved_left (ndebug : Bool) :
    Board.moveTile ndebug solved ⟨.left⟩ = .ok (false, solved) := by
  cases ndebug <;> decide

theorem moveTile_solved_down (ndebug : Bool) :
    Board.moveTile ndebug solved ⟨.down⟩ = .ok (true, swapCells solved 2 3 3 3) := by
  cases ndebug <;> decide

theorem moveTile_solved_right (ndebug : Bool) :
    Board.moveTile ndebug solved ⟨.right⟩ = .ok (true, swapCells solved 3 2 3 3) := by
  cases ndebug <;> decide

/-- The shuffle call of `main` returns for each of the four draws. -/
theorem shuffle_returns (ndebug : Bool) (draw : Fin 4) :
    ∃ moved b, Board.moveTile ndebug solved (Direction.random draw) = .ok (moved, b) := by
  fin_cases draw
  · exact ⟨_, _, moveTile_solved_up ndebug⟩
  · exact ⟨_, _, moveTile_solved_down ndebug⟩
  · exact ⟨_, _, moveTile_solved_left ndebug⟩
  · exact ⟨_, _, moveTile_solved_right ndebug⟩

theorem main_eq_mainLoop {ndebug : Bool} {draw : Fin 4} {moved : Bool} {b : Board}
    (h : Board.moveTile ndebug solved (Direction.random draw) = .ok (moved, b))
    (stream : List Char) :
    main ndebug draw stream =
      mainLoop ndebug solved (stream.length + 1) b stream [.board b] := by
  simp [main, h, bind, Except.bind]

/-- C14: the win check comes first in every iteration of the loop. Whenever the
live board compares equal to the solved reference at the start of an iteration,
the iteration prints "You won!" and the run ends with `return 0`, the input left
as it was. In particular, for a shuffle draw whose `moveTile` call on the solved
layout returns `false`, the whole run prints the board and "You won!" and ends
without having read any character of the input. -/
theorem win_check_precedes_input (ndebug : Bool) (board2 board : Board) (fuel : Nat)
    (stream : List Char) (printed : List Printed) (draw : Fin 4)
    (hwin : Board.operatorEq board board2 = true)
    (hdraw : (Board.moveTile ndebug solved (Direction.random draw)).map Prod.fst = .ok false) :
    mainLoop ndebug board2 (fuel + 1) board stream printed =
      .ok ⟨printed ++ [.text "\n\nYou won!\n\n"], stream, .exit0⟩ ∧
    main ndebug draw stream =
      .ok ⟨[.board solved, .text "\n\nYou won!\n\n"], stream, .exit0⟩ := by
  refine ⟨mainLoop_won fuel stream printed hwin, ?_⟩
  have hmove : Board.moveTile ndebug solved (Direction.random draw) = .ok (false, solved) := by
    fin_cases draw
    · exact moveTile_solved_up ndebug
    · have h := moveTile_solved_down ndebug
      have hr : Direction.random 1 = ⟨.down⟩ := by decide
      simp [hr, h, Except.map] at hdraw
    · exact moveTile_solved_left ndebug
    · have h := moveTile_solved_right ndebug
      have hr : Direction.random 3 = ⟨.right⟩ := by decide
      simp [hr, h, Except.map] at hdraw
  rw [main_eq_mainLoop hmove, mainLoop_won _ _ _ (by decide)]
  rfl

theorem win_check_precedes_input_witness :
    Board.operatorEq solved solved = true ∧
    (Board.moveTile false solved (Direction.random 2)).map Prod.fst = .ok false ∧
    mainLoop false solved (3 + 1) solved ['w', 'q'] [.board solved] =
      .ok ⟨[.board solved] ++ [.text "\n\nYou won!\n\n"], ['w', 'q'], .exit0⟩ ∧
    main false 2 ['w', 'q'] =
      .ok ⟨[.board solved, .text "\n\nYou won!\n\n"], ['w', 'q'], .exit0⟩ :=
  ⟨by decide, by decide,
    win_check_precedes_input false solved solved 3 ['w', 'q'] [.board solved] 2
      (by decide) (by decide)⟩

/-- C15, as stated, fails: with the shuffle draw 0 (up, illegal from the solved
layout) and the input `q` alone, the run ends with "You won!" without reading the
`q`; so it is not the case that every draw and every sequence of move commands
followed by `q` ends with "Bye!". -/
theorem quit_after_illegal_shuffle_prints_won :
    main false 0 ['q'] =
      .ok ⟨[.board solved, .text "\n\nYou won!\n\n"], ['q'], .exit0⟩ ∧
    ¬ (∀ (draw : Fin 4) (cmds : List Char),
        (∀ c ∈ cmds, c = 'w' ∨ c = 'a' ∨ c = 's' ∨ c = 'd') →
        ∃ s, main false draw (cmds ++ ['q']) = .ok s ∧
          s.printed.getLast? = some (.text "\n\nBye!\n\n")) := by
  have hmain : main false 0 ['q'] =
      .ok ⟨[.board solved, .text "\n\nYou won!\n\n"], ['q'], .exit0⟩ := by decide
  refine ⟨hmain, fun h => ?_⟩
  obtain ⟨s, hs, hlast⟩ := h 0 [] (by simp)
  rw [List.nil_append, hmain] at hs
  cases hs
  exact absurd hlast (by decide)

/-- C15, amended: issuing `q` while the session is still reading commands ends it
at once with the farewell message and no win check. For every shuffle draw and
every finite sequence of move commands (possibly empty) after which, and after
each prefix of which, the live board differs from the solved reference, followed
by `q`, the run ends with `return 0`, its last message is "Bye!", it has not
printed "You won!", and it has read nothing beyond the `q`. -/
theorem quit_while_unsolved (ndebug : Bool) (draw : Fin 4) (cmds rest : List Char)
    (moved0 : Bool) (b0 : Board)
    (hshuffle : Board.moveTile ndebug solved (Direction.random draw) = .ok (moved0, b0))
    (hkeys : ∀ c ∈ cmds, c = 'w' ∨ c = 'a' ∨ c = 's' ∨ c = 'd')
    (hunsolved : ∀ k, k ≤ cmds.length → ∃ b, boardAfter ndebug b0 (cmds.take k) = .ok b ∧
      Board.operatorEq b solved = false) :
    ∃ s, main ndebug draw (cmds ++ 'q' :: rest) = .ok s ∧ s.ending = .exit0 ∧
      s.unread = rest ∧ s.printed.getLast? = some (.text "\n\nBye!\n\n") ∧
      Printed.text "\n\nYou won!\n\n" ∉ s.printed := by
  obtain ⟨boards, hloop⟩ := mainLoop_quit_after_moves ndebug solved rest cmds b0 [.board b0]
    ((cmds ++ 'q' :: rest).length + 1) (by simp; omega) hkeys hunsolved
  refine ⟨_, by rw [main_eq_mainLoop hshuffle]; exact hloop, rfl, rfl, ?_, ?_⟩
  · exact List.getLast?_concat _
  · simp

theorem quit_while_unsolved_witness :
    Board.moveTile false solved (Direction.random 1) = .ok (true, swapCells solved 2 3 3 3) ∧
    (∀ c ∈ ['s', 'd'], c = 'w' ∨ c = 'a' ∨ c = 's' ∨ c = 'd') ∧
    (∀ k, k ≤ ['s', 'd'].length →
      ∃ b, boardAfter false (swapCells solved 2 3 3 3) (['s', 'd'].take k) = .ok b ∧
        Board.operatorEq b solved = false) ∧
    ∃ s, main false 1 (['s', 'd'] ++ 'q' :: ['w']) = .ok s ∧ s.ending = .exit0 ∧
      s.unread = ['w'] ∧ s.printed.getLast? = some (.text "\n\nBye!\n\n") ∧
      Printed.text "\n\nYou won!\n\n" ∉ s.printed :=
  have hun : ∀ k, k ≤ ['s', 'd'].length →
      ∃ b, boardAfter false (swapCells solved 2 3 3 3) (['s', 'd'].take k) = .ok b ∧
        Board.operatorEq b solved = false := by
    intro k hk
    have hk' : k = 0 ∨ k = 1 ∨ k = 2 := by simp at hk; omega
    rcases hk' with rfl | rfl | rfl
    · exact ⟨swapCells solved 2 3 3 3, by decide, by decide⟩
    · exact ⟨swapCells (swapCells solved 2 3 3 3) 1 3 2 3, by decide, by decide⟩
    · exact ⟨swapCells (swapCells (swapCells solved 2 3 3 3) 1 3 2 3) 1 2 1 3,
        by decide, by decide⟩
  ⟨by decide, by decide, hun,
    quit_while_unsolved false 1 ['s', 'd'] ['w'] true (swapCells solved 2 3 3 3)
      (by decide) (by decide) hun⟩

/-- C20: the draws whose direction is legal from the solved layout are 1 (down)
and 3 (right). After either shuffle the live board compares unequal to the solved
reference, so the run prints the board and waits for a command instead of
printing "You won!". If the first command is the key that `convert` maps to the
inverse direction (`w`, up, after down; `a`, left, after right), `moveTile`
returns `true`, the solved board is printed, and the run ends with "You won!"
without reading further. -/
theorem legal_shuffle_won_by_inverse_key (ndebug : Bool) (rest : List Char) :
    (Finset.univ.filter fun draw : Fin 4 =>
      (Board.moveTile ndebug solved (Direction.random draw)).map Prod.fst = .ok true)
        = {1, 3} ∧
    (Board.moveTile ndebug solved (Direction.random 1)
        = .ok (true, swapCells solved 2 3 3 3) ∧
      Board.operatorEq (swapCells solved 2 3 3 3) solved = false ∧
      main ndebug 1 [] = .ok ⟨[.board (swapCells solved 2 3 3 3)], [], .awaitingInput⟩ ∧
      Direction.neg ndebug (Direction.random 1) = UserInput.convert ndebug 'w' ∧
      UserInput.convert ndebug 'w' = .ok ⟨.up⟩ ∧
      Board.moveTile ndebug (swapCells solved 2 3 3 3) ⟨.up⟩ = .ok (true, solved) ∧
      main ndebug 1 ('w' :: rest) =
        .ok ⟨[.board (swapCells solved 2 3 3 3), .board solved,
          .text "\n\nYou won!\n\n"], rest, .exit0⟩) ∧
    (Board.moveTile ndebug solved (Direction.random 3)
        = .ok (true, swapCells solved 3 2 3 3) ∧
      Board.operatorEq (swapCells solved 3 2 3 3) solved = false ∧
      main ndebug 3 [] = .ok ⟨[.board (swapCells solved 3 2 3 3)], [], .awaitingInput⟩ ∧
      Direction.neg ndebug (Direction.random 3) = UserInput.convert ndebug 'a' ∧
      UserInput.convert ndebug 'a' = .ok ⟨.left⟩ ∧
      Board.moveTile ndebug (swapCells solved 3 2 3 3) ⟨.left⟩ = .ok (true, solved) ∧
      main ndebug 3 ('a' :: rest) =
        .ok ⟨[.board (swapCells solved 3 2 3 3), .board solved,
          .text "\n\nYou won!\n\n"], rest, .exit0⟩) := by
  have hr0 : Direction.random 0 = ⟨.up⟩ := by decide
  have hr1 : Direction.random 1 = ⟨.down⟩ := by decide
  have hr2 : Direction.random 2 = ⟨.left⟩ := by decide
  have hr3 : Direction.random 3 = ⟨.right⟩ := by decide
  have hback1 : Board.moveTile ndebug (swapCells solved 2 3 3 3) ⟨.up⟩ = .ok (true, solved) := by
    cases ndebug <;> decide
  have hback3 : Board.moveTile ndebug (swapCells solved 3 2 3 3) ⟨.left⟩
      = .ok (true, solved) := by
    cases ndebug <;> decide
  have hw : UserInput.convert ndebug 'w' = .ok ⟨.up⟩ := by cases ndebug <;> decide
  have ha : UserInput.convert ndebug 'a' = .ok ⟨.left⟩ := by cases ndebug <;> decide
  have hne1 : Board.operatorEq (swapCells solved 2 3 3 3) solved = false := by decide
  have hne3 : Board.operatorEq (swapCells solved 3 2 3 3) solved = false := by decide
  refine ⟨?_, ⟨?_, hne1, ?_, ?_, hw, hback1, ?_⟩, ⟨?_, hne3, ?_, ?_, ha, hback3, ?_⟩⟩
  · ext draw
    fin_cases draw <;>
      simp [hr0, hr1, hr2, hr3, moveTile_solved_up, moveTile_solved_down,
        moveTile_solved_left, moveTile_solved_right, Except.map]
  · rw [hr1]; exact moveTile_solved_down ndebug
  · cases ndebug <;> decide
  · cases ndebug <;> decide
  · rw [main_eq_mainLoop (by rw [hr1]; exact moveTile_solved_down ndebug),
      List.length_cons, mainLoop_move _ rest _ hne1 (by decide) (by decide) hw hback1,
      mainLoop_won _ _ _ (by decide)]
    rfl
  · rw [hr3]; exact moveTile_solved_right ndebug
  · cases ndebug <;> decide
  · cases ndebug <;> decide
  · rw [main_eq_mainLoop (by rw [hr3]; exact moveTile_solved_right ndebug),
      List.length_cons, mainLoop_move _ rest _ hne3 (by decide) (by decide) ha hback3,
      mainLoop_won _ _ _ (by decide)]
    rfl

/-! ### The empty cell after a swap -/

theorem unique_of_exactlyOneEmpty {b : Board} {r c : Fin s_size} (hone : ExactlyOneEmpty b)
    (he : (b.m_board r c).isEmpty = true) :
    ∀ i j, (b.m_board i j).isEmpty = true → i = r ∧ j = c := by
  obtain ⟨u, _, huniq⟩ := hone
  intro i j hij
  have h1 := huniq (i, j) hij
  have h2 := huniq (r, c) he
  rw [← h2] at h1
  exact ⟨congrArg Prod.fst h1, congrArg Prod.snd h1⟩

theorem isEmpty_of_scan {b : Board} {r c : Fin s_size}
    (hs : Board.findEmptyTileScan b = some (pointOf r c)) : (b.m_board r c).isEmpty = true := by
  obtain ⟨r0, c0, hp, hempty, _, _⟩ := (Board.findEmptyTileScan_eq_some b _).mp hs
  obtain ⟨rfl, rfl⟩ := Board.pointOf_injective hp
  exact hempty

/-- Exchanging the only empty cell `(r, c)` with the cell `(r', c')` leaves a board
on which the scan finds the empty tile at `(r', c')`. -/
theorem scan_swapCells_of_unique {b : Board} {r c : Fin s_size} (r' c' : Fin s_size)
    (he : (b.m_board r c).isEmpty = true)
    (huniq : ∀ i j, (b.m_board i j).isEmpty = true → i = r ∧ j = c) :
    Board.findEmptyTileScan (swapCells b r' c' r c) = some (pointOf r' c') := by
  apply Board.findEmptyTileScan_of_unique
  · simpa [swapCells] using he
  · intro i j hij
    by_contra hcon
    simp only [swapCells, hcon, if_false] at hij
    split_ifs at hij with h1
    · have := huniq r' c' hij
      exact hcon ⟨h1.1.trans this.1.symm, h1.2.trans this.2.symm⟩
    · exact h1 (huniq i j hij)

/-- C16: on a board with exactly one empty tile, found at `E`, and a direction `d`
whose adjacent point `A` is in bounds, `moveTile(d)` returns `true`, after it
`findEmptyTile` returns `A`, and the tile that was at `A` is at `E`. -/
theorem empty_cell_follows_move (ndebug : Bool) (b : Board) (d : Direction) (E A : Point)
    (hone : ExactlyOneEmpty b) (hE : Board.findEmptyTile ndebug b = .ok E)
    (hA : E.getAdjacentPoint ndebug d = .ok A) (hv : Board.validPoint A = true) :
    ∃ b' t, Board.moveTile ndebug b d = .ok (true, b') ∧
      Board.findEmptyTile ndebug b' = .ok A ∧
      Board.cellAt b A = .ok t ∧ Board.cellAt b' E = .ok t := by
  rcases Board.moveTile_cases hE hA with ⟨hv', _⟩ | ⟨r, c, r', c', rfl, rfl, _, hs, hm⟩
  · rw [hv] at hv'
    exact absurd hv' (by decide)
  · have he := isEmpty_of_scan hs
    have huniq := unique_of_exactlyOneEmpty hone he
    refine ⟨_, b.m_board r' c', hm,
      Board.findEmptyTile_of_scan_some ndebug (scan_swapCells_of_unique r' c' he huniq),
      Board.cellAt_pointOf b r' c', ?_⟩
    rw [Board.cellAt_pointOf]
    by_cases h1 : r = r' ∧ c = c'
    · simp [swapCells, h1.1, h1.2]
    · simp [swapCells, h1]

theorem empty_cell_follows_move_witness :
    ExactlyOneEmpty solved ∧ Board.findEmptyTile false solved = .ok ⟨3, 3⟩ ∧
    Point.getAdjacentPoint false ⟨3, 3⟩ ⟨.right⟩ = .ok ⟨2, 3⟩ ∧
    Board.validPoint ⟨2, 3⟩ = true ∧
    ∃ b' t, Board.moveTile false solved ⟨.right⟩ = .ok (true, b') ∧
      Board.findEmptyTile false b' = .ok ⟨2, 3⟩ ∧
      Board.cellAt solved ⟨2, 3⟩ = .ok t ∧ Board.cellAt b' ⟨3, 3⟩ = .ok t :=
  ⟨by decide, by decide, by decide, by decide,
    empty_cell_follows_move false solved ⟨.right⟩ ⟨3, 3⟩ ⟨2, 3⟩ (by decide) (by decide)
      (by decide) (by decide)⟩

/-! ### The two builds agree where no assertion fires -/

theorem getAdjacentPoint_ndebug {p a : Point} {d : Direction}
    (h : p.getAdjacentPoint false d = .ok a) : p.getAdjacentPoint true d = .ok a := by
  obtain ⟨t⟩ := d
  cases t <;>
    simp_all [Point.getAdjacentPoint, Direction.getType, assertFalse, bind, Except.bind]

theorem moveTile_ndebug {b : Board} {d : Direction} {res : Bool × Board}
    (h : Board.moveTile false b d = .ok res) : Board.moveTile true b d = .ok res := by
  obtain ⟨E, A, hE, hA⟩ := Board.moveTile_ok_inv h
  have hs : Board.findEmptyTileScan b = some E := by
    rcases (Board.findEmptyTile_ok_iff false b E).mp hE with hs | ⟨_, hcon, _⟩
    · exact hs
    · exact absurd hcon (by decide)
  have hE' := Board.findEmptyTile_of_scan_some true hs
  have hA' := getAdjacentPoint_ndebug hA
  rcases Board.moveTile_cases hE hA with ⟨hv, hm⟩ | ⟨r, c, r', c', rfl, rfl, _, _, hm⟩
  · rw [hm] at h
    cases h
    exact Board.moveTile_of_invalid hE' hA' hv
  · rw [hm] at h
    cases h
    exact Board.moveTile_of_valid hE' hA'

theorem moveTiles_ndebug : ∀ (ds : List Direction) (b b' : Board),
    Board.moveTiles false b ds = .ok b' → Board.moveTiles true b ds = .ok b' := by
  intro ds
  induction ds with
  | nil => exact fun b b' h => h
  | cons d ds ih =>
    intro b b' h
    cases hm : Board.moveTile false b d with
    | error e => simp [Board.moveTiles, hm, bind, Except.bind] at h
    | ok res =>
      rw [Board.moveTiles_cons_of_ok hm] at h
      rw [Board.moveTiles_cons_of_ok (moveTile_ndebug hm)]
      exact ih _ _ h

/-- C17: the defensive failure paths are not reached under legal operation. Every
sequence of `moveTile` calls with directions among up, down, left, right, started
on the solved layout and run with the assertions armed, returns a board, the same
one the build without assertions returns. On that board the loops of
`findEmptyTile` return an in-bounds point `E` and do not fall through; for each of
the four directions `d` the switches of `getAdjacentPoint` and of `operator-`
return without reaching their assertion; `moveTile(d)` returns without fault; and
whenever it calls `swapTile`, that is, when the adjacent point `A` is valid, both
`A` and `E` are in bounds and `swapTile` indexes inside the array. -/
theorem defensive_paths_unreachable (ds : List Direction) (d : Direction)
    (hds : ∀ d' ∈ ds, d'.isCompass) (hd : d.isCompass) :
    ∃ b E A d', Board.moveTiles false solved ds = .ok b ∧
      Board.moveTiles true solved ds = .ok b ∧
      Board.findEmptyTileScan b = some E ∧ Board.findEmptyTile false b = .ok E ∧
      Board.validPoint E = true ∧
      E.getAdjacentPoint false d = .ok A ∧ Direction.neg false d = .ok d' ∧
      (∃ res, Board.moveTile false b d = .ok res) ∧
      (Board.validPoint A = true →
        Board.validPoint E = true ∧ ∃ b', Board.swapTile b A E = .ok b') := by
  obtain ⟨b, hb, hone⟩ := Board.moveTiles_preserves ExactlyOneEmpty
    (fun b r1 c1 r2 c2 h => (Board.exactlyOneEmpty_swapCells b r1 c1 r2 c2).mpr h)
    (fun _ h => Board.exists_empty_of_exactlyOne h) false ds solved (by decide) hds
  obtain ⟨r0, c0, he0⟩ := Board.exists_empty_of_exactlyOne hone
  cases hs : Board.findEmptyTileScan b with
  | none =>
    have := (Board.findEmptyTileScan_eq_none b).mp hs r0 c0
    rw [he0] at this
    exact absurd this (by decide)
  | some E =>
    obtain ⟨r, c, rfl, _⟩ := (Board.findEmptyTileScan_eq_some b E).mp hs
    obtain ⟨A, hA⟩ := Board.getAdjacentPoint_compass false (pointOf r c) hd
    obtain ⟨d', hneg, _⟩ := Board.getAdjacentPoint_neg hd (Board.pointOf_inIntRange r c) hA
    refine ⟨b, pointOf r c, A, d', hb, moveTiles_ndebug ds solved b hb, hs,
      Board.findEmptyTile_of_scan_some false hs, Board.validPoint_pointOf r c, hA, hneg,
      Board.moveTile_returns false he0 hd, fun hv => ⟨Board.validPoint_pointOf r c, ?_⟩⟩
    obtain ⟨r', c', rfl⟩ := (Board.validPoint_iff A).mp hv
    exact ⟨_, Board.swapTile_pointOf b r' c' r c⟩

theorem defensive_paths_unreachable_witness :
    (∀ d' ∈ [Direction.mk .down, ⟨.right⟩, ⟨.up⟩, ⟨.up⟩], d'.isCompass) ∧
    (Direction.mk .left).isCompass ∧
    ∃ b E A d', Board.moveTiles false solved [⟨.down⟩, ⟨.right⟩, ⟨.up⟩, ⟨.up⟩] = .ok b ∧
      Board.moveTiles true solved [⟨.down⟩, ⟨.right⟩, ⟨.up⟩, ⟨.up⟩] = .ok b ∧
      Board.findEmptyTileScan b = some E ∧ Board.findEmptyTile false b = .ok E ∧
      Board.validPoint E = true ∧
      E.getAdjacentPoint false ⟨.left⟩ = .ok A ∧ Direction.neg false ⟨.left⟩ = .ok d' ∧
      (∃ res, Board.moveTile false b ⟨.left⟩ = .ok res) ∧
      (Board.validPoint A = true →
        Board.validPoint E = true ∧ ∃ b', Board.swapTile b A E = .ok b') :=
  ⟨by decide, by decide,
    defensive_paths_unreachable [⟨.down⟩, ⟨.right⟩, ⟨.up⟩, ⟨.up⟩] ⟨.left⟩ (by decide)
      (by decide)⟩

/-! ### Counting the legal directions -/

/-- The flag `moveTile` returns is `validPoint` of the adjacent point. -/
theorem moveTile_flag_of_scan {ndebug : Bool} {b : Board} {r c : Fin s_size}
    {t : DirectionType} (hs : Board.findEmptyTileScan b = some (pointOf r c))
    (ht : t ≠ DirectionType.maxDirections) :
    (Board.moveTile ndebug b ⟨t⟩).map Prod.fst =
      ((pointOf r c).getAdjacentPoint false ⟨t⟩).map Board.validPoint := by
  obtain ⟨A, hA⟩ := Board.getAdjacentPoint_compass ndebug (pointOf r c)
    (d := ⟨t⟩) ht
  have hA' : (pointOf r c).getAdjacentPoint false ⟨t⟩ = .ok A := by
    cases t <;> simp_all [Point.getAdjacentPoint, Direction.getType]
  have hE := Board.findEmptyTile_of_scan_some ndebug hs
  rw [hA']
  rcases Board.moveTile_cases hE hA with ⟨hv, hm⟩ | ⟨_, _, _, _, _, _, hv, _, hm⟩
  · rw [hm]; simp [Except.map, hv]
  · rw [hm]; simp [Except.map, hv]

theorem legalDirections_of_scan {ndebug : Bool} {b : Board} {r c : Fin s_size}
    (hs : Board.findEmptyTileScan b = some (pointOf r c)) :
    legalDirections ndebug b =
      [DirectionType.up, .down, .left, .right].filter fun t =>
        ((pointOf r c).getAdjacentPoint false ⟨t⟩).map Board.validPoint = .ok true := by
  have hlist : List.ofFn Direction.directionTypes
      = [DirectionType.up, .down, .left, .right] := by decide
  unfold legalDirections
  rw [hlist]
  apply List.filter_congr
  intro t ht
  have hne : t ≠ DirectionType.maxDirections := by
    rintro rfl
    simp at ht
  rw [moveTile_flag_of_scan hs hne]

/-- C19: on a board with exactly one empty tile, at row `r` and column `c`, at
least two of up, down, left, right make `moveTile` return `true`; they are exactly
two when the empty cell is a corner, three when it is on an edge and not a corner,
and four when it is one of the four interior cells. -/
theorem legal_direction_count (ndebug : Bool) (b : Board) (r c : Fin s_size)
    (hone : ExactlyOneEmpty b) (he : (b.m_board r c).isEmpty = true) :
    2 ≤ (legalDirections ndebug b).length ∧
    (legalDirections ndebug b).length =
      if (r = 0 ∨ r = 3) ∧ (c = 0 ∨ c = 3) then 2
      else if r = 0 ∨ r = 3 ∨ c = 0 ∨ c = 3 then 3
      else 4 := by
  have hs := Board.findEmptyTileScan_of_unique he (unique_of_exactlyOneEmpty hone he)
  rw [legalDirections_of_scan hs]
  have key : ∀ r c : Fin s_size,
      2 ≤ ([DirectionType.up, .down, .left, .right].filter fun t =>
        ((pointOf r c).getAdjacentPoint false ⟨t⟩).map Board.validPoint = .ok true).length ∧
      ([DirectionType.up, .down, .left, .right].filter fun t =>
        ((pointOf r c).getAdjacentPoint false ⟨t⟩).map Board.validPoint = .ok true).length =
        if (r = 0 ∨ r = 3) ∧ (c = 0 ∨ c = 3) then 2
        else if r = 0 ∨ r = 3 ∨ c = 0 ∨ c = 3 then 3
        else 4 := by decide
  exact key r c

theorem legal_direction_count_witness :
    ExactlyOneEmpty (swapCells solved 1 2 3 3) ∧
    ((swapCells solved 1 2 3 3).m_board 1 2).isEmpty = true ∧
    2 ≤ (legalDirections false (swapCells solved 1 2 3 3)).length ∧
    (legalDirections false (swapCells solved 1 2 3 3)).length =
      if ((1 : Fin s_size) = 0 ∨ (1 : Fin s_size) = 3) ∧
          ((2 : Fin s_size) = 0 ∨ (2 : Fin s_size) = 3) then 2
      else if (1 : Fin s_size) = 0 ∨ (1 : Fin s_size) = 3 ∨
          (2 : Fin s_size) = 0 ∨ (2 : Fin s_size) = 3 then 3
      else 4 :=
  ⟨by decide, by decide,
    legal_direction_count false (swapCells solved 1 2 3 3) 1 2 (by decide) (by decide)⟩

/-! ### The parity of a reachable layout -/

theorem solved_cells_injective : ∀ p q : Fin s_size × Fin s_size,
    solved.m_board p.1 p.2 = solved.m_board q.1 q.2 → p = q := by decide

theorem solved_empty_cell : ∀ p : Fin s_size × Fin s_size,
    (solved.m_board p.1 p.2).isEmpty = true → p = (3, 3) := by decide

theorem isLayout_unique {b : Board} {σ τ : Equiv.Perm (Fin s_size × Fin s_size)}
    (hσ : IsLayout b σ) (hτ : IsLayout b τ) : τ = σ := by
  ext p : 1
  exact solved_cells_injective _ _ ((hτ p).symm.trans (hσ p))

theorem isLayout_unique_empty {b : Board} {σ : Equiv.Perm (Fin s_size × Fin s_size)}
    {r c : Fin s_size} (hσ : IsLayout b σ) (he : (b.m_board r c).isEmpty = true) :
    ∀ i j, (b.m_board i j).isEmpty = true → i = r ∧ j = c := by
  intro i j hij
  have h1 : σ (i, j) = (3, 3) := solved_empty_cell _ (by rw [← hσ (i, j)]; exact hij)
  have h2 : σ (r, c) = (3, 3) := solved_empty_cell _ (by rw [← hσ (r, c)]; exact he)
  have h3 : (i, j) = (r, c) := σ.injective (h1.trans h2.symm)
  exact ⟨congrArg Prod.fst h3, congrArg Prod.snd h3⟩

theorem isLayout_swapCells {b : Board} {σ : Equiv.Perm (Fin s_size × Fin s_size)}
    (hσ : IsLayout b σ) (r1 c1 r2 c2 : Fin s_size) :
    IsLayout (swapCells b r1 c1 r2 c2) (σ * Equiv.swap (r1, c1) (r2, c2)) := by
  intro p
  rw [Board.swapCells_eq_comp_swap, hσ, Equiv.Perm.mul_apply]

/-- One step to an in-bounds neighbour changes the Manhattan distance by one. -/
theorem neg_one_pow_manhattan_step {ndebug : Bool} {d : Direction} {r c r' c' : Fin s_size}
    (hd : d.isCompass)
    (hA : (pointOf r c).getAdjacentPoint ndebug d = .ok (pointOf r' c')) :
    (-1 : ℤˣ) ^ manhattan (pointOf r' c') = -(-1 : ℤˣ) ^ manhattan (pointOf r c) := by
  have hr : r.val < 4 := r.isLt
  have hc : c.val < 4 := c.isLt
  have hr' : r'.val < 4 := r'.isLt
  have hc' : c'.val < 4 := c'.isLt
  have hstep : manhattan (pointOf r' c') = manhattan (pointOf r c) + 1 ∨
      manhattan (pointOf r c) = manhattan (pointOf r' c') + 1 := by
    obtain ⟨t⟩ := d
    cases t <;>
      simp only [Point.getAdjacentPoint, Direction.getType, Direction.isCompass, pointOf,
        wrapInt32, Except.ok.injEq, Point.mk.injEq, ne_eq, not_true_eq_false] at hA hd <;>
      simp only [manhattan, pointOf] <;> omega
  rcases hstep with h | h
  · rw [h, pow_succ]; simp
  · rw [h, pow_succ]; simp

theorem parityInvariant_solved : ParityInvariant solved :=
  ⟨1, 3, 3, fun _ => rfl, by decide, by simp [manhattan, pointOf]⟩

theorem parityInvariant_moveTile {ndebug : Bool} {b : Board} {d : Direction}
    {res : Bool × Board} (hb : ParityInvariant b) (hd : d.isCompass)
    (hm : Board.moveTile ndebug b d = .ok res) : ParityInvariant res.2 := by
  obtain ⟨σ, r, c, hσ, he, hsign⟩ := hb
  have huniq := isLayout_unique_empty hσ he
  have hs := Board.findEmptyTileScan_of_unique he huniq
  obtain ⟨E, A, hE, hA⟩ := Board.moveTile_ok_inv hm
  have hEeq : E = pointOf r c := by
    rw [Board.findEmptyTile_of_scan_some ndebug hs] at hE
    exact (Except.ok.inj hE).symm
  subst hEeq
  rcases Board.moveTile_cases hE hA with ⟨_, hm'⟩ | ⟨r0, c0, r', c', hp, rfl, _, _, hm'⟩
  · rw [hm'] at hm
    cases hm
    exact ⟨σ, r, c, hσ, he, hsign⟩
  · obtain ⟨rfl, rfl⟩ := Board.pointOf_injective hp
    rw [hm'] at hm
    cases hm
    have hne : ((r', c') : Fin s_size × Fin s_size) ≠ (r, c) := by
      intro h
      have h1 : r' = r := congrArg Prod.fst h
      have h2 : c' = c := congrArg Prod.snd h
      exact Board.getAdjacentPoint_ne_self hd hA (by rw [h1, h2])
    refine ⟨σ * Equiv.swap (r', c') (r, c), r', c', isLayout_swapCells hσ r' c' r c, ?_, ?_⟩
    · simpa [swapCells] using he
    · rw [Equiv.Perm.sign_mul, Equiv.Perm.sign_swap hne, hsign,
        neg_one_pow_manhattan_step hd hA]
      simp

/-- A property that every returning `moveTile` call with a compass direction keeps,
and that holds only of boards with an empty cell, holds after every sequence of
such calls, each of which returns. -/
theorem moveTiles_invariant (ndebug : Bool) (P : Board → Prop)
    (hstep : ∀ (b : Board) (d : Direction) (res : Bool × Board), P b → d.isCompass →
      Board.moveTile ndebug b d = .ok res → P res.2)
    (hempty : ∀ b, P b → ∃ r c, (b.m_board r c).isEmpty = true) :
    ∀ (ds : List Direction) (b : Board), P b → (∀ d ∈ ds, d.isCompass) →
      ∃ b', Board.moveTiles ndebug b ds = .ok b' ∧ P b' := by
  intro ds
  induction ds with
  | nil => exact fun b hb _ => ⟨b, rfl, hb⟩
  | cons d ds ih =>
    intro b hb hds
    obtain ⟨r, c, he⟩ := hempty b hb
    have hd := hds d (List.mem_cons_self _ _)
    obtain ⟨res, hm⟩ := Board.moveTile_returns ndebug he hd
    obtain ⟨b', hb', hP⟩ := ih res.2 (hstep b d res hb hd hm)
      (fun d' hd' => hds d' (List.mem_cons_of_mem _ hd'))
    exact ⟨b', by rw [Board.moveTiles_cons_of_ok hm]; exact hb', hP⟩

/-- C18: the parity invariant. Every sequence of `moveTile` calls with directions
among up, down, left, right, started on the solved layout, returns a board `b` on
which `findEmptyTile` returns a point `E`; the cells of `b` are those of the solved
layout rearranged by exactly one permutation `σ`, and the sign of `σ` is `(-1)` to
the Manhattan distance `|3 - x| + |3 - y|` of `E` from the corner `(3, 3)`.
Consequently the solved layout with two distinct numbered tiles exchanged, the
empty tile still at `(3, 3)`, is not the result of any such sequence. -/
theorem parity_invariant (ndebug : Bool) (ds : List Direction) (r1 c1 r2 c2 : Fin s_size)
    (hds : ∀ d ∈ ds, d.isCompass)
    (h1 : ((r1, c1) : Fin s_size × Fin s_size) ≠ (3, 3))
    (h2 : ((r2, c2) : Fin s_size × Fin s_size) ≠ (3, 3))
    (h12 : ((r1, c1) : Fin s_size × Fin s_size) ≠ (r2, c2)) :
    (∃ b E σ, Board.moveTiles ndebug solved ds = .ok b ∧
      Board.findEmptyTile ndebug b = .ok E ∧ IsLayout b σ ∧ (∀ τ, IsLayout b τ → τ = σ) ∧
      Equiv.Perm.sign σ = (-1 : ℤˣ) ^ manhattan E) ∧
    Board.moveTiles ndebug solved ds ≠ .ok (swapCells solved r1 c1 r2 c2) := by
  obtain ⟨b, hb, σ, r, c, hσ, he, hsign⟩ := moveTiles_invariant ndebug ParityInvariant
    (fun b d res hP hd hm => parityInvariant_moveTile hP hd hm)
    (fun b hP => by obtain ⟨_, r, c, _, he, _⟩ := hP; exact ⟨r, c, he⟩)
    ds solved parityInvariant_solved hds
  have huniq := isLayout_unique_empty hσ he
  have hs := Board.findEmptyTileScan_of_unique he huniq
  refine ⟨⟨b, pointOf r c, σ, hb, Board.findEmptyTile_of_scan_some ndebug hs, hσ,
    fun τ hτ => isLayout_unique hσ hτ, hsign⟩, fun hcon => ?_⟩
  rw [hb] at hcon
  have hbeq : b = swapCells solved r1 c1 r2 c2 := Except.ok.inj hcon
  subst hbeq
  -- the layout is a transposition, of sign -1
  have hswap : IsLayout (swapCells solved r1 c1 r2 c2) (1 * Equiv.swap (r1, c1) (r2, c2)) :=
    isLayout_swapCells (σ := 1) (fun _ => rfl) r1 c1 r2 c2
  have hσeq : σ = 1 * Equiv.swap (r1, c1) (r2, c2) := (isLayout_unique hswap hσ)
  -- and its empty cell is still the corner, at distance 0
  have hcorner : ((swapCells solved r1 c1 r2 c2).m_board 3 3).isEmpty = true := by
    have e1 : ¬((3 : Fin s_size) = r1 ∧ (3 : Fin s_size) = c1) := fun h => h1 (by rw [← h.1, ← h.2])
    have e2 : ¬((3 : Fin s_size) = r2 ∧ (3 : Fin s_size) = c2) := fun h => h2 (by rw [← h.1, ← h.2])
    simp only [swapCells, e1, e2, if_false]
    decide
  obtain ⟨hr, hc⟩ := huniq 3 3 hcorner
  rw [← hr, ← hc, hσeq, one_mul, Equiv.Perm.sign_swap h12] at hsign
  exact absurd hsign (by decide)

theorem parity_invariant_witness :
    (∀ d ∈ [Direction.mk .down, ⟨.right⟩, ⟨.up⟩, ⟨.left⟩], d.isCompass) ∧
    (((0, 0) : Fin s_size × Fin s_size) ≠ (3, 3)) ∧
    (((0, 1) : Fin s_size × Fin s_size) ≠ (3, 3)) ∧
    (((0, 0) : Fin s_size × Fin s_size) ≠ (0, 1)) ∧
    (∃ b E σ, Board.moveTiles false solved [⟨.down⟩, ⟨.right⟩, ⟨.up⟩, ⟨.left⟩] = .ok b ∧
      Board.findEmptyTile false b = .ok E ∧ IsLayout b σ ∧ (∀ τ, IsLayout b τ → τ = σ) ∧
      Equiv.Perm.sign σ = (-1 : ℤˣ) ^ manhattan E) ∧
    Board.moveTiles false solved [⟨.down⟩, ⟨.right⟩, ⟨.up⟩, ⟨.left⟩]
      ≠ .ok (swapCells solved 0 0 0 1) :=
  ⟨by decide, by decide, by decide, by decide,
    parity_invariant false [⟨.down⟩, ⟨.right⟩, ⟨.up⟩, ⟨.left⟩] 0 0 0 1 (by decide)
      (by decide) (by decide) (by decide)⟩

/-! ### The iteration bound of the loop is never hit -/

theorem getCommandLoop_length : ∀ (stream : List Char) (c x : Char) (rest : List Char),
    UserInput.getCommandLoop c stream = some (x, rest) →
      (UserInput.validInput c = true ∧ rest = stream) ∨ rest.length < stream.length := by
  intro stream
  induction stream with
  | nil =>
    intro c x rest h
    by_cases hv : UserInput.validInput c = true
    · simp only [UserInput.getCommandLoop, hv, if_true, Option.some.injEq,
        Prod.mk.injEq] at h
      exact Or.inl ⟨hv, h.2.symm⟩
    · simp [UserInput.getCommandLoop, hv] at h
  | cons a as ih =>
    intro c x rest h
    by_cases hv : UserInput.validInput c = true
    · simp only [UserInput.getCommandLoop, hv, if_true, Option.some.injEq,
        Prod.mk.injEq] at h
      exact Or.inl ⟨hv, h.2.symm⟩
    · simp only [UserInput.getCommandLoop, hv, if_false] at h
      rcases ih a x rest h with ⟨_, hrest⟩ | hlt
      · right; rw [hrest]; simp
      · right; simp; omega

theorem getCommandFromUser_length {stream rest : List Char} {x : Char}
    (h : UserInput.getCommandFromUser stream = some (x, rest)) :
    rest.length < stream.length := by
  rcases getCommandLoop_length stream _ x rest h with ⟨hv, _⟩ | hlt
  · exact absurd hv (by decide)
  · exact hlt

/-- With more iterations allowed than the input has characters, the loop ends by
itself: by `return 0` or waiting for input, not at the bound. -/
theorem mainLoop_fuel_suffices (ndebug : Bool) (board2 : Board) :
    ∀ (fuel : Nat) (board : Board) (stream : List Char) (printed : List Printed) (s : Session),
      stream.length < fuel → mainLoop ndebug board2 fuel board stream printed = .ok s →
      s.ending ≠ .outOfFuel := by
  intro fuel
  induction fuel with
  | zero => intro _ _ _ _ h; exact absurd h (Nat.not_lt_zero _)
  | succ f ih =>
    intro board stream printed s hlen h
    unfold mainLoop at h
    by_cases hwin : Board.operatorEq board board2 = true
    · simp only [hwin, if_true, Except.ok.injEq] at h
      subst h
      simp
    · simp only [hwin] at h
      cases hcmd : UserInput.getCommandFromUser stream with
      | none =>
        simp only [hcmd, Bool.false_eq_true, if_false, Except.ok.injEq] at h
        subst h
        simp
      | some cmd =>
        obtain ⟨input, rest⟩ := cmd
        have hrest := getCommandFromUser_length hcmd
        simp only [hcmd, Bool.false_eq_true, if_false] at h
        by_cases hq : input = 'q'
        · simp only [hq, if_true, Except.ok.injEq] at h
          subst h
          simp
        · simp only [hq, if_false] at h
          cases hd : UserInput.convert ndebug input with
          | error e => simp [hd, bind, Except.bind] at h
          | ok d =>
            cases hm : Board.moveTile ndebug board d with
            | error e => simp [hd, hm, bind, Except.bind] at h
            | ok res =>
              obtain ⟨moved, b'⟩ := res
              simp only [hd, hm, bind, Except.bind] at h
              exact ih _ _ _ s (by omega) h

theorem main_never_outOfFuel (ndebug : Bool) (draw : Fin 4) (stream : List Char) (s : Session)
    (h : main ndebug draw stream = .ok s) : s.ending ≠ .outOfFuel := by
  obtain ⟨moved, b, hm⟩ := shuffle_returns ndebug draw
  rw [main_eq_mainLoop hm] at h
  exact mainLoop_fuel_suffices ndebug solved _ b stream _ s (Nat.lt_succ_self _) h

end Puzzle15
